import Mathlib

/-!
# fluent-bit-init-process.go: a verification model

A shallow embedding of the Fluent Bit init process
(`src/fluent-bit-init-process.go`) and theorems about it.

Modelling conventions.

* A Go `string` is a byte sequence. It is represented by a Lean `String`
  whose every `Char` stands for one byte (exact for ASCII text). Slicing and
  splitting therefore work position by position on `String.data`.
* The process aborts in two ways: `logrus.Fatalf` (exit status 1) and a Go
  runtime panic. Both are values of `Failure`; an `Abort` additionally
  records the state (files on disk, globals) at the moment of the abort.
* The outside world (environment block, metadata endpoint, JSON decoder,
  S3, files present at start) is the record `World`.
* The file system is a finite map from absolute paths to contents. The
  process runs with working directory `/` (it creates `fluent-bit-init.conf`
  relatively and hands `-c /fluent-bit-init.conf` to Fluent Bit), so a
  relative path `p` denotes `/p`. Two spellings of a path that differ in more
  than the leading `/` (`./p`, `a/../p`, a symbolic link) count as different
  files. Creating a regular file and writing to an open file succeed; opening
  a missing file fails. Creating an AWS session succeeds.
* `State.processed` is a history variable: `processConfigFile` records there
  each fragment it has read (path and content). No function of the model
  reads it; it exists so that theorems can speak about "the fragments
  processed so far, in processing order".
-/

set_option maxRecDepth 100000

namespace FluentBitInit

/-! ## Go strings -/

namespace strings

/-- List form of `strings.HasPrefix`: does `s` start with `p`? -/
def startsWithL : List Char → List Char → Bool
  | _, [] => true
  | [], _ :: _ => false
  | c :: cs, d :: ds => (c == d) && startsWithL cs ds

/-- List form of `strings.Contains`. -/
def containsL : List Char → List Char → Bool
  | [], sub => sub.isEmpty
  | c :: cs, sub => startsWithL (c :: cs) sub || containsL cs sub

/-- Go `strings.HasPrefix(s, p)`. -/
def startsWith (s p : String) : Bool := startsWithL s.data p.data

/-- Go `strings.Contains(s, substr)`. -/
def Contains (s substr : String) : Bool := containsL s.data substr.data

/-- Splitting around a one-byte separator with at most `k` cuts: the loop of
Go's `genSplit`, which cuts at the first separator while cuts remain and then
stores the rest as the last element. -/
def splitL (sep : Char) : List Char → Nat → List (List Char)
  | [], _ => [[]]
  | c :: cs, 0 => [c :: cs]
  | c :: cs, k + 1 =>
    if c = sep then [] :: splitL sep cs k
    else
      match splitL sep cs (k + 1) with
      | [] => [[c]]
      | h :: t => (c :: h) :: t

/-- Go `strings.SplitN(s, sep, n)` for a one-byte separator (every call of the
program passes one: `=`, `/`, `:`). `n = 0` gives no element, `n < 0` all
substrings (`Count(s, sep) + 1` of them), `n > 0` at most `n`. -/
def SplitN (s : String) (sep : Char) (n : Int) : List String :=
  if n = 0 then []
  else if n < 0 then (splitL sep s.data (s.data.count sep)).map String.mk
  else (splitL sep s.data (n.toNat - 1)).map String.mk

/-- Go `strings.Split(s, sep)`, which is `SplitN(s, sep, -1)`. -/
def Split (s : String) (sep : Char) : List String := SplitN s sep (-1)

/-- Go slice expression `s[i:]`; `none` stands for the runtime panic
"slice bounds out of range" raised when `i > len(s)`. -/
def sliceFrom (s : String) (i : Nat) : Option String :=
  if i ≤ s.data.length then some (String.mk (s.data.drop i)) else none

/-- Byte-wise lexicographic order on strings, the order of `sort.Strings` and of
the names returned by `ioutil.ReadDir`. -/
def leL : List Char → List Char → Bool
  | [], _ => true
  | _ :: _, [] => false
  | c :: cs, d :: ds => if c.toNat < d.toNat then true else if d.toNat < c.toNat then false else leL cs ds

/-- Order on strings induced by `leL`. -/
def le (a b : String) : Prop := leL a.data b.data = true

instance : DecidableRel le := fun a b => inferInstanceAs (Decidable (leL a.data b.data = true))

end strings

/-- Go `regexp.MatchString(pattern, s)` for a pattern made of literal
characters only (both patterns of the program are): an unanchored match,
that is, `pattern` occurs somewhere in `s`. -/
def regexpMatchString (pattern s : String) : Bool := strings.Contains s pattern

/-! ## Amazon resource names (`github.com/aws/aws-sdk-go/aws/arn`) -/

/-- The SDK's `arn.ARN`. -/
structure ARN where
  Partition : String := ""
  Service : String := ""
  Region : String := ""
  AccountID : String := ""
  Resource : String := ""
  deriving DecidableEq, Repr

namespace arn

/-- The SDK's `arn.Parse`: the text must start with `arn:` and split at `:` into
six sections (the sixth takes the rest); `none` stands for the returned
error, in which case the SDK returns the zero `ARN`. -/
def Parse (s : String) : Option ARN :=
  if strings.startsWith s "arn:" then
    match strings.SplitN s ':' 6 with
    | [_, partition, service, region, account, resource] =>
      some { Partition := partition, Service := service, Region := region,
             AccountID := account, Resource := resource }
    | _ => none
  else none

end arn

/-! ## Data model -/

/-- The static paths of the program. -/
def s3FileFolderPath : String := "fluent-bit-init-s3-files"

/-- Path of the main config file. -/
def mainConfigFilePath : String := "fluent-bit-init.conf"

/-- Path of the config file shipped in the image. -/
def originalMainConfigFilePath : String := "/fluent-bit/etc/fluent-bit.conf"

/-- Path of the invoker script. -/
def invokerFilePath : String := "fluent-bit-invoker.sh"

/-- Initial value of the global `fluentBitCommand`. -/
def defaultFluentBitCommand : String :=
  "exec /fluent-bit/bin/fluent-bit -e /fluent-bit/firehose.so -e /fluent-bit/cloudwatch.so -e /fluent-bit/kinesis.so"

/-- The struct `ECSTaskMetadata`; the zero value has every field empty. -/
structure ECSTaskMetadata where
  AWS_REGION : String := ""
  ECS_CLUSTER : String := ""
  ECS_TASK_ARN : String := ""
  ECS_TASK_ID : String := ""
  ECS_FAMILY : String := ""
  ECS_LAUNCH_TYPE : String := ""
  ECS_REVISION : String := ""
  ECS_TASK_DEFINITION : String := ""
  deriving DecidableEq, Repr

/-- What `reflect` enumerates for an `ECSTaskMetadata`: field `i` of the type
gives the name, field `i` of the value gives the text, `i` running through
the fields in declaration order. -/
def ECSTaskMetadata.fields (m : ECSTaskMetadata) : List (String × String) :=
  [("AWS_REGION", m.AWS_REGION), ("ECS_CLUSTER", m.ECS_CLUSTER),
   ("ECS_TASK_ARN", m.ECS_TASK_ARN), ("ECS_TASK_ID", m.ECS_TASK_ID),
   ("ECS_FAMILY", m.ECS_FAMILY), ("ECS_LAUNCH_TYPE", m.ECS_LAUNCH_TYPE),
   ("ECS_REVISION", m.ECS_REVISION), ("ECS_TASK_DEFINITION", m.ECS_TASK_DEFINITION)]

/-- A file system: absolute path and content of every regular file. -/
abbrev FS := List (String × String)

/-- The absolute form of a path for a process whose working directory is `/`. -/
def absPath (p : String) : String :=
  match p.data with
  | '/' :: _ => p
  | _ => "/" ++ p

namespace FS

/-- Content stored under the key `k`, if any. -/
def find (fs : FS) (k : String) : Option String :=
  match fs with
  | [] => none
  | (k', c) :: rest => if k' = k then some c else find rest k

/-- Content of the regular file at path `p`, if there is one. -/
def read (fs : FS) (p : String) : Option String := find fs (absPath p)

/-- The file system without the key `k`. -/
def remove (fs : FS) (k : String) : FS :=
  match fs with
  | [] => []
  | (k', c) :: rest => if k' = k then remove rest k else (k', c) :: remove rest k

/-- The file system with the file at `p` holding exactly `c`. -/
def write (fs : FS) (p : String) (c : String) : FS :=
  (absPath p, c) :: remove fs (absPath p)

/-- Names of the entries of directory `dir`, as `ioutil.ReadDir` lists them:
one name for each file directly inside and for each subdirectory that holds a
file, without repetition, sorted by name. -/
def entries (fs : FS) (dir : String) : List String :=
  let pre := (absPath dir ++ "/").data
  let names := fs.filterMap (fun e =>
    if strings.startsWithL e.1.data pre then
      match strings.splitL '/' (e.1.data.drop pre.length) 1 with
      | [] => none
      | seg :: _ => if seg = [] then none else some (String.mk seg)
    else none)
  List.insertionSort strings.le names.dedup

end FS

/-- The mutable state of a run: the package-level variables and the disk. -/
structure State where
  /-- Global `fluentBitCommand`. -/
  fluentBitCommand : String
  /-- Global `exists3Client`. -/
  exists3Client : Bool
  /-- Region the global `s3Client` was created for (meaningful once `exists3Client`). -/
  s3ClientRegion : String
  /-- Global `metadataReigon`. -/
  metadataReigon : String
  /-- Files on disk. -/
  fs : FS
  /-- History variable: fragments read by `processConfigFile`, oldest first. -/
  processed : List (String × String)
  deriving DecidableEq, Repr

/-- How a run stops early. -/
inductive Failure where
  /-- Exit through `logrus.Fatalf` or `logrus.Fatalln`, with the message logged. -/
  | fatal (msg : String)
  /-- Go runtime panic. -/
  | panic (msg : String)
  deriving DecidableEq, Repr

/-- An aborted run: the cause and the state left behind. -/
structure Abort where
  cause : Failure
  st : State
  deriving DecidableEq, Repr

deriving instance DecidableEq for Except

/-- The world outside the process. -/
structure World where
  /-- Result of `os.Environ()`: the entries of the environment block. -/
  environ : List String
  /-- Body read from the response of `httpClient.Get(url)`; `none` when `Get`
  returns an error (and a nil response). -/
  httpGet : String → Option String
  /-- Result of `json.Unmarshal(body, &metadata)` on the zero record: the record
  afterwards and whether an error was returned. A body that is not valid JSON
  leaves the record untouched. -/
  unmarshal : String → ECSTaskMetadata × Bool
  /-- Result of `GetBucketLocation` asked through a client of the given region for the
  given bucket: the location constraint (empty for null), `none` on error. -/
  getBucketLocation : String → String → Option String
  /-- Bytes of the object a downloader of the given region fetches for the given
  bucket and key; `none` on error. -/
  download : String → String → String → Option String
  /-- Files on disk when the process starts. -/
  disk : FS

/-! ## Operations -/

/-- Go `os.Getenv(key)` over the environment block: the value of the first entry
named `key`, the empty string when there is none. -/
def Getenv (environ : List String) (key : String) : String :=
  match environ with
  | [] => ""
  | env :: rest =>
    match strings.SplitN env '=' 2 with
    | [k, v] => if k = key then v else Getenv rest key
    | _ => Getenv rest key

/-- Stop with `logrus.Fatalf`. -/
def fatalf {α : Type} (msg : String) (st : State) : Except Abort α :=
  .error { cause := .fatal msg, st := st }

/-- Stop with a runtime panic. -/
def goPanic {α : Type} (msg : String) (st : State) : Except Abort α :=
  .error { cause := .panic msg, st := st }

/-- Last element of a slice, `a[len(a)-1]`; `none` stands for the index panic
on an empty slice. -/
def lastElem (a : List String) : Option String := a.getLast?

/-- Function `getECSTaskMetadata`. The endpoint is read from the environment;
when it is empty the zero record is returned. Otherwise the response body is
decoded, the task ARN parsed, and the three derived fields are set. Every error
is only logged, except that a failed `Get` leaves `res` nil and the read of
`res.Body` panics. -/
def getECSTaskMetadata (w : World) : Except Failure ECSTaskMetadata :=
  let metadata : ECSTaskMetadata := {}
  let ecsTaskMetadataEndpointV4 := Getenv w.environ "ECS_CONTAINER_METADATA_URI_V4"
  if ecsTaskMetadataEndpointV4 = "" then .ok metadata
  else
    match w.httpGet (ecsTaskMetadataEndpointV4 ++ "/task") with
    | none => .error (.panic "invalid memory address or nil pointer dereference")
    | some response =>
      let metadata := (w.unmarshal response).1
      let arn : ARN := (arn.Parse metadata.ECS_TASK_ARN).getD {}
      let resourceID := strings.Split arn.Resource '/'
      match lastElem resourceID with
      | none => .error (.panic "index out of range")
      | some taskID =>
        .ok { metadata with
              ECS_TASK_ID := taskID
              AWS_REGION := arn.Region
              ECS_TASK_DEFINITION := metadata.ECS_FAMILY ++ ":" ++ metadata.ECS_REVISION }

/-- Does the path name a directory rather than a file that can be created: is
its last segment empty, `.` or `..`? -/
def isDirPath (filePath : String) : Bool :=
  match lastElem (strings.Split filePath '/') with
  | none => true
  | some seg => seg = "" || seg = "." || seg = ".."

/-- Function `createFile`: `os.Create` makes the file or truncates it; the error
branch is taken for a path that names a directory. -/
def createFile (filePath : String) (st : State) : Except Abort State :=
  if isDirPath filePath then fatalf ("Cannot create the file: " ++ filePath) st
  else .ok { st with fs := st.fs.write filePath "" }

/-- Function `openFile`: the file is opened for appending, which fails when it
does not exist. The handle is represented by the content the file has, to
which the caller's writes are appended. -/
def openFile (filePath : String) (st : State) : Except Abort String :=
  match st.fs.read filePath with
  | none => fatalf ("Unable to read " ++ filePath) st
  | some content => .ok content

/-- The loop of `setECSTaskMetadata` over the fields, on the content of the
invoker file: a field with an empty value is skipped, any other appends its
export line. -/
def writeFields : List (String × String) → String → String
  | [], file => file
  | (name, value) :: rest, file =>
    if value = "" then writeFields rest file
    else writeFields rest (file ++ ("export " ++ name ++ "=" ++ value ++ "\n"))

/-- Function `setECSTaskMetadata`. -/
def setECSTaskMetadata (metadata : ECSTaskMetadata) (filePath : String) (st : State) :
    Except Abort State :=
  match openFile filePath st with
  | .error a => .error a
  | .ok invokerFile =>
    .ok { st with fs := st.fs.write filePath (writeFields metadata.fields invokerFile) }

/-- Function `createCommand`, on the global command. -/
def createCommand (command : String) (filePath : String) : String :=
  command ++ " -c /" ++ filePath

/-- Function `createS3ConfigFileFolder`: `os.Mkdir` with its error ignored.
Directories hold no content of their own, so the files on disk are unchanged. -/
def createS3ConfigFileFolder (_folderPath : String) (st : State) : State := st

/-- Function `writeInclude`. -/
def writeInclude (configFilePath mainConfigFilePath : String) (st : State) :
    Except Abort State :=
  match openFile mainConfigFilePath st with
  | .error a => .error a
  | .ok mainConfigFile =>
    let writeContent := "@INCLUDE " ++ configFilePath ++ "\n"
    .ok { st with fs := st.fs.write mainConfigFilePath (mainConfigFile ++ writeContent) }

/-- Function `updateCommand`. -/
def updateCommand (parserFilePath : String) (st : State) : State :=
  { st with fluentBitCommand := st.fluentBitCommand ++ " -R " ++ parserFilePath }

/-- Function `processConfigFile`. The fragment read is also recorded in the
history variable. -/
def processConfigFile (path : String) (st : State) : Except Abort State :=
  match st.fs.read path with
  | none => fatalf ("Cannot open file: " ++ path) st
  | some content =>
    let st := { st with processed := st.processed ++ [(path, content)] }
    if strings.Contains content "[PARSER]" then .ok (updateCommand path st)
    else writeInclude path mainConfigFilePath st

/-- Function `createS3Client`: the client is created for the metadata region, or
for `us-east-1` when that is empty. -/
def createS3Client (st : State) : State :=
  let region := if st.metadataReigon ≠ "" then st.metadataReigon else "us-east-1"
  { st with s3ClientRegion := region, exists3Client := true }

/-- Lines 204 to 211 of `getS3ConfigFile`: the bucket name and the object key it
takes from the reference. The text is cut after its first 13 bytes and the rest
is split at the first `/`. -/
def bucketAndFile (arn : String) : Except Failure (String × String) :=
  match strings.sliceFrom arn 13 with
  | none => .error (.panic "slice bounds out of range")
  | some arnBucketFile =>
    match strings.SplitN arnBucketFile '/' 2 with
    | [bucketName, s3FilePath] => .ok (bucketName, s3FilePath)
    | _ => .error (.fatal ("Unrecognizable arn: " ++ arn))

/-- Path under which `downloadS3ConfigFile` stores the object with key
`s3FilePath` (lines 272 and 273); `none` stands for the index panic on an
empty slice. -/
def stagedFilePath (s3FilePath : String) : Option String :=
  let s3FileName := strings.SplitN s3FilePath '/' (-1)
  match lastElem s3FileName with
  | none => none
  | some name => some (s3FileFolderPath ++ "/" ++ name)

/-- Function `downloadS3ConfigFile`; `s3Downloader bucket key` is the outcome of
`Download` into the created file. -/
def downloadS3ConfigFile (s3Downloader : String → String → Option String)
    (s3FilePath bucketName : String) (st : State) : Except Abort State :=
  match stagedFilePath s3FilePath with
  | none => goPanic "index out of range" st
  | some filePath =>
    match createFile filePath st with
    | .error a => .error a
    | .ok st =>
      match s3Downloader bucketName s3FilePath with
      | none => fatalf ("Cannot download " ++ s3FilePath ++ " from s3") st
      | some bytes => .ok { st with fs := st.fs.write filePath bytes }

/-- Function `getS3ConfigFile`. Creating sessions succeeds. -/
def getS3ConfigFile (w : World) (arn : String) (st : State) : Except Abort State :=
  let st := if !st.exists3Client then createS3Client st else st
  match bucketAndFile arn with
  | .error f => .error { cause := f, st := st }
  | .ok (bucketName, s3FilePath) =>
    match w.getBucketLocation st.s3ClientRegion bucketName with
    | none =>
      fatalf ("Cannot get bucket region of " ++ bucketName ++ " + " ++ s3FilePath) st
    | some locationConstraint =>
      let bucketRegion := if locationConstraint = "" then "us-east-1" else locationConstraint
      downloadS3ConfigFile (w.download bucketRegion) s3FilePath bucketName st

/-- The loop of `getAllConfigFiles` over the environment entries. -/
def getAllConfigFilesLoop (w : World) : List String → State → Except Abort State
  | [], st => .ok st
  | env :: envs, st =>
    match strings.SplitN env '=' 2 with
    | [envKey, envValue] =>
      let matched_s3 := regexpMatchString "aws_fluent_bit_s3_" envKey
      let matched_file := regexpMatchString "aws_fluent_bit_file_" envKey
      match (if matched_s3 then getS3ConfigFile w envValue st else .ok st) with
      | .error a => .error a
      | .ok st =>
        match (if matched_file then processConfigFile envValue st else .ok st) with
        | .error a => .error a
        | .ok st => getAllConfigFilesLoop w envs st
    | _ => fatalf ("Unrecognizable environment variables: " ++ env) st

/-- Function `getAllConfigFiles`. -/
def getAllConfigFiles (w : World) (st : State) : Except Abort State :=
  getAllConfigFilesLoop w w.environ st

/-- The loop of `processS3ConfigFiles` over the directory entries. -/
def processS3ConfigFilesLoop (folderPath : String) : List String → State → Except Abort State
  | [], st => .ok st
  | file :: fileInfos, st =>
    let filePath := "/" ++ folderPath ++ "/" ++ file
    match processConfigFile filePath st with
    | .error a => .error a
    | .ok st => processS3ConfigFilesLoop folderPath fileInfos st

/-- Function `processS3ConfigFiles`. The folder exists (it is made before), so
`ioutil.ReadDir` succeeds. -/
def processS3ConfigFiles (folderPath : String) (st : State) : Except Abort State :=
  processS3ConfigFilesLoop folderPath (st.fs.entries folderPath) st

/-- Function `modifyInvokerFile`. -/
def modifyInvokerFile (filePath : String) (st : State) : Except Abort State :=
  match openFile filePath st with
  | .error a => .error a
  | .ok invokerFile =>
    .ok { st with fs := st.fs.write filePath (invokerFile ++ st.fluentBitCommand) }

/-- The package-level variables at program start, on the disk of the world. -/
def initialState (w : World) : State :=
  { fluentBitCommand := defaultFluentBitCommand
    exists3Client := false
    s3ClientRegion := ""
    metadataReigon := ""
    fs := w.disk
    processed := [] }

/-- The part of `main` after the metadata has been written: from the creation
of the main config file to the final write of the command. -/
def mainAfterMetadata (w : World) (st : State) : Except Abort State :=
  match createFile mainConfigFilePath st with
  | .error a => .error a
  | .ok st =>
    match writeInclude originalMainConfigFilePath mainConfigFilePath st with
    | .error a => .error a
    | .ok st =>
      let st := { st with fluentBitCommand := createCommand st.fluentBitCommand mainConfigFilePath }
      let st := createS3ConfigFileFolder s3FileFolderPath st
      match getAllConfigFiles w st with
      | .error a => .error a
      | .ok st =>
        match processS3ConfigFiles s3FileFolderPath st with
        | .error a => .error a
        | .ok st => modifyInvokerFile invokerFilePath st

/-- Function `main`. -/
def main (w : World) : Except Abort State :=
  match createFile invokerFilePath (initialState w) with
  | .error a => .error a
  | .ok st =>
    match getECSTaskMetadata w with
    | .error f => .error { cause := f, st := st }
    | .ok metadata =>
      let st := { st with metadataReigon := metadata.AWS_REGION }
      match setECSTaskMetadata metadata invokerFilePath st with
      | .error a => .error a
      | .ok st => mainAfterMetadata w st

/-! ## Vocabulary of the statements -/

/-- Concatenation of a list of texts, in order. -/
def joinAll : List String → String
  | [] => ""
  | x :: xs => x ++ joinAll xs

/-- The export line of one attribute as the metadata export grammar gives it:
`export <AttributeName>=<Value>` and a line break, and nothing at all for an
attribute whose value is empty. -/
def exportLine (name value : String) : String :=
  if value = "" then "" else "export " ++ name ++ "=" ++ value ++ "\n"

/-- A state used to exercise the statements: the main config file holds its
first line, the invoker file is empty, and two fragments are on disk. -/
def sampleState : State :=
  { fluentBitCommand := defaultFluentBitCommand ++ " -c /fluent-bit-init.conf"
    exists3Client := false
    s3ClientRegion := ""
    metadataReigon := ""
    fs := [("/fluent-bit-init.conf", "@INCLUDE /fluent-bit/etc/fluent-bit.conf\n"),
           ("/fluent-bit-invoker.sh", ""),
           ("/parsers.conf", "[PARSER]\n    Name json\n"),
           ("/outputs.conf", "[OUTPUT]\n    Name stdout\n")]
    processed := [] }

/-- A world used to exercise the statements: no metadata endpoint, and an S3
that knows the single bucket `ygloa-bucket` (in `us-east-1`, so its location
constraint is null) with the single object `s3_parser.conf`. -/
def sampleWorld : World :=
  { environ := ["PATH=/usr/bin"]
    httpGet := fun _ => none
    unmarshal := fun _ => ({}, true)
    getBucketLocation := fun _ bucket => if bucket = "ygloa-bucket" then some "" else none
    download := fun _ bucket key =>
      if bucket = "ygloa-bucket" ∧ key = "s3_parser.conf" then some "[PARSER]\n" else none
    disk := [] }

/-- A world whose metadata endpoint answers with a task document that decodes to
cluster `demo`, task ARN `arn:aws:ecs:us-west-2:111:task/demo/abc123`,
family `svc` and revision `4`. -/
def metadataWorld : World :=
  { environ := ["PATH=/usr/bin", "ECS_CONTAINER_METADATA_URI_V4=http://169.254.170.2/v4/77"]
    httpGet := fun url => if url = "http://169.254.170.2/v4/77/task" then some "task document" else none
    unmarshal := fun body =>
      if body = "task document" then
        ({ ECS_CLUSTER := "demo"
           ECS_TASK_ARN := "arn:aws:ecs:us-west-2:111:task/demo/abc123"
           ECS_FAMILY := "svc"
           ECS_REVISION := "4" }, false)
      else ({}, true)
    getBucketLocation := fun _ _ => none
    download := fun _ _ _ => none
    disk := [] }

/-- A world whose metadata endpoint answers with a task document that decodes
well but whose task ARN lacks the `arn:` start, so that `arn.Parse` fails. -/
def brokenArnWorld : World :=
  { metadataWorld with
    unmarshal := fun _ =>
      ({ ECS_CLUSTER := "demo"
         ECS_TASK_ARN := "task/demo/abc123"
         ECS_FAMILY := "svc"
         ECS_REVISION := "4" }, false) }

/-- A world whose metadata endpoint answers with a body that is not valid JSON:
decoding fails and leaves the record untouched. -/
def brokenJsonWorld : World :=
  { metadataWorld with unmarshal := fun _ => ({}, true) }

/-- The state a run ends in, whether it succeeds or aborts. -/
def finalState (r : Except Abort State) : State :=
  match r with
  | .ok st => st
  | .error a => a.st

/-- Is the fragment a parser fragment: does its content contain `[PARSER]`? -/
def isParserFragment (f : String × String) : Bool := strings.Contains f.2 "[PARSER]"

/-- The `-R` flags of the parser fragments among `frags`, in order. -/
def parserFlags (frags : List (String × String)) : String :=
  joinAll ((frags.filter isParserFragment).map (fun f => " -R " ++ f.1))

/-- The include lines of the fragments among `frags` that are not parser
fragments, in order. -/
def includeLines (frags : List (String × String)) : String :=
  joinAll ((frags.filter (fun f => !isParserFragment f)).map
    (fun f => "@INCLUDE " ++ f.1 ++ "\n"))

/-- The local-file sources of an environment block, in the order of the block:
the values of the entries whose name matches `aws_fluent_bit_file_`. -/
def localFileSources : List String → List String
  | [] => []
  | env :: envs =>
    match strings.SplitN env '=' 2 with
    | [envKey, envValue] =>
      if regexpMatchString "aws_fluent_bit_file_" envKey then envValue :: localFileSources envs
      else localFileSources envs
    | _ => localFileSources envs

/-- The remote-object sources of an environment block, in the order of the
block: the values of the entries whose name matches `aws_fluent_bit_s3_`. -/
def remoteObjectSources : List String → List String
  | [] => []
  | env :: envs =>
    match strings.SplitN env '=' 2 with
    | [envKey, envValue] =>
      if regexpMatchString "aws_fluent_bit_s3_" envKey then envValue :: remoteObjectSources envs
      else remoteObjectSources envs
    | _ => remoteObjectSources envs

/-- The two facts that tie the outputs of a run to the fragments processed so
far: the command is the default command, the `-c` flag and the `-R` flags of
the parser fragments; the main config file is its first line and the include
lines of the other fragments. -/
structure Assembled (st : State) : Prop where
  command : st.fluentBitCommand
    = defaultFluentBitCommand ++ " -c /fluent-bit-init.conf" ++ parserFlags st.processed
  mainConfig : st.fs.read mainConfigFilePath
    = some ("@INCLUDE /fluent-bit/etc/fluent-bit.conf\n" ++ includeLines st.processed)

/-- Does the path lie inside the directory `dir`? -/
def insideDir (dir q : String) : Bool :=
  strings.startsWithL (absPath q).data (absPath dir ++ "/").data

/-- The export lines of a metadata record: one line for each attribute with a
non-empty value, in declaration order. -/
def exportLines (metadata : ECSTaskMetadata) : String :=
  joinAll
    [exportLine "AWS_REGION" metadata.AWS_REGION,
     exportLine "ECS_CLUSTER" metadata.ECS_CLUSTER,
     exportLine "ECS_TASK_ARN" metadata.ECS_TASK_ARN,
     exportLine "ECS_TASK_ID" metadata.ECS_TASK_ID,
     exportLine "ECS_FAMILY" metadata.ECS_FAMILY,
     exportLine "ECS_LAUNCH_TYPE" metadata.ECS_LAUNCH_TYPE,
     exportLine "ECS_REVISION" metadata.ECS_REVISION,
     exportLine "ECS_TASK_DEFINITION" metadata.ECS_TASK_DEFINITION]

/-- A world with one remote source, discovered first, and two local sources;
the remote object and `/local.conf` are plain fragments, `/parsers.conf` is a
parser fragment. -/
def mixedWorld : World :=
  { environ := ["PATH=/usr/bin",
                "aws_fluent_bit_s3_1=arn:aws:s3:::ygloa-bucket/conf/remote.conf",
                "aws_fluent_bit_file_1=/local.conf",
                "aws_fluent_bit_file_2=/parsers.conf"]
    httpGet := fun _ => none
    unmarshal := fun _ => ({}, true)
    getBucketLocation := fun _ bucket => if bucket = "ygloa-bucket" then some "" else none
    download := fun _ bucket key =>
      if bucket = "ygloa-bucket" ∧ key = "conf/remote.conf" then some "[OUTPUT]\n    Name stdout\n"
      else none
    disk := [("/local.conf", "[INPUT]\n    Name forward\n"),
             ("/parsers.conf", "[PARSER]\n    Name json\n")] }

/-- A world with two remote sources, `zeta.conf` discovered before `alpha.conf`,
both plain fragments. -/
def twoRemotesWorld : World :=
  { environ := ["aws_fluent_bit_s3_1=arn:aws:s3:::ygloa-bucket/zeta.conf",
                "aws_fluent_bit_s3_2=arn:aws:s3:::ygloa-bucket/alpha.conf"]
    httpGet := fun _ => none
    unmarshal := fun _ => ({}, true)
    getBucketLocation := fun _ bucket => if bucket = "ygloa-bucket" then some "" else none
    download := fun _ bucket _ => if bucket = "ygloa-bucket" then some "[FILTER]\n" else none
    disk := [] }

/-- A world whose single remote source is a text without any `:` (dashes stand
where an ARN has colons), and an S3 in which the bucket `ygloa-bucket` holds
the object `s3_parser.conf`. -/
def malformedWorld : World :=
  { environ := ["aws_fluent_bit_s3_conf=arn-aws-s3---ygloa-bucket/s3_parser.conf"]
    httpGet := fun _ => none
    unmarshal := fun _ => ({}, true)
    getBucketLocation := fun _ bucket => if bucket = "ygloa-bucket" then some "" else none
    download := fun _ bucket key =>
      if bucket = "ygloa-bucket" ∧ key = "s3_parser.conf" then some "[PARSER]\n" else none
    disk := [] }

/-- A world whose single remote source has no `/` after its first 13 bytes. -/
def rejectedWorld : World :=
  { malformedWorld with environ := ["aws_fluent_bit_s3_conf=arn:aws:s3:::ygloa-bucket"] }

/-! # Theorems -/

/-! ## Lemmas on Go strings -/

namespace strings

theorem startsWithL_iff (s p : List Char) : startsWithL s p = true ↔ ∃ t, s = p ++ t := by
  induction p generalizing s with
  | nil => simp [startsWithL]
  | cons d ds ih =>
    cases s with
    | nil => simp [startsWithL]
    | cons c cs =>
      simp only [startsWithL, Bool.and_eq_true, beq_iff_eq, ih, List.cons_append, List.cons.injEq]
      constructor
      · rintro ⟨rfl, t, rfl⟩
        exact ⟨t, rfl, rfl⟩
      · rintro ⟨t, rfl, rfl⟩
        exact ⟨rfl, t, rfl⟩

theorem containsL_iff (s p : List Char) : containsL s p = true ↔ ∃ a b, s = a ++ p ++ b := by
  induction s with
  | nil =>
    cases p with
    | nil => simp [containsL]
    | cons d ds => simp [containsL]
  | cons c cs ih =>
    simp only [containsL, Bool.or_eq_true, startsWithL_iff, ih]
    constructor
    · rintro (⟨t, h⟩ | ⟨a, b, h⟩)
      · exact ⟨[], t, by simpa using h⟩
      · exact ⟨c :: a, b, by simp [h]⟩
    · rintro ⟨a, b, h⟩
      cases a with
      | nil => exact Or.inl ⟨b, by simpa using h⟩
      | cons x a =>
        simp only [List.cons_append, List.cons.injEq] at h
        exact Or.inr ⟨a, b, by simpa using h.2⟩

/-- Go `strings.Contains` holds exactly when the text is some text, then the
substring, then some text. -/
theorem Contains_iff (s sub : String) :
    Contains s sub = true ↔ ∃ a b : String, s = a ++ sub ++ b := by
  unfold Contains
  rw [containsL_iff]
  constructor
  · rintro ⟨a, b, h⟩
    refine ⟨String.mk a, String.mk b, ?_⟩
    apply String.ext
    simp [String.data_append, h]
  · rintro ⟨a, b, rfl⟩
    exact ⟨a.data, b.data, by simp [String.data_append]⟩

theorem splitL_ne_nil (sep : Char) (s : List Char) (k : Nat) : splitL sep s k ≠ [] := by
  induction s generalizing k with
  | nil => simp [splitL]
  | cons c cs ih =>
    cases k with
    | zero => simp [splitL]
    | succ k =>
      simp only [splitL]
      split
      · simp
      · split <;> simp

theorem splitL_zero (sep : Char) (s : List Char) : splitL sep s 0 = [s] := by
  cases s <;> simp [splitL]

theorem splitL_no_sep (sep : Char) (s : List Char) (k : Nat) (h : sep ∉ s) :
    splitL sep s k = [s] := by
  induction s generalizing k with
  | nil => simp [splitL]
  | cons c cs ih =>
    cases k with
    | zero => simp [splitL]
    | succ k =>
      have hc : ¬ c = sep := fun e => h (by simp [e])
      have hcs : sep ∉ cs := fun e => h (by simp [e])
      simp [splitL, hc, ih (k + 1) hcs]

theorem splitL_first (sep : Char) (a b : List Char) (k : Nat) (h : sep ∉ a) :
    splitL sep (a ++ sep :: b) (k + 1) = a :: splitL sep b k := by
  induction a with
  | nil => simp [splitL]
  | cons c cs ih =>
    have hc : ¬ c = sep := fun e => h (by simp [e])
    have hcs : sep ∉ cs := fun e => h (by simp [e])
    simp [splitL, hc, ih hcs]

theorem splitL_last (sep : Char) (pre t : List Char) (k : Nat) (ht : sep ∉ t)
    (hk : pre.count sep + 1 ≤ k) :
    ∃ l, l ≠ [] ∧ splitL sep (pre ++ sep :: t) k = l ++ [t] := by
  induction pre generalizing k with
  | nil =>
    obtain ⟨k, rfl⟩ : ∃ j, k = j + 1 := ⟨k - 1, by omega⟩
    exact ⟨[[]], by simp, by simp [splitL, splitL_no_sep sep t k ht]⟩
  | cons c cs ih =>
    obtain ⟨k, rfl⟩ : ∃ j, k = j + 1 := ⟨k - 1, by omega⟩
    by_cases hc : c = sep
    · subst hc
      have hk2 : cs.count c + 1 ≤ k := by simpa using hk
      obtain ⟨l, hl, e⟩ := ih k hk2
      exact ⟨[] :: l, by simp, by simp [splitL, e]⟩
    · have hk2 : cs.count sep + 1 ≤ k + 1 := by
        have : (c :: cs).count sep = cs.count sep := by
          simp [List.count_cons, hc]
        omega
      obtain ⟨l, hl, e⟩ := ih (k + 1) hk2
      cases l with
      | nil => exact absurd rfl hl
      | cons x l => exact ⟨(c :: x) :: l, by simp, by simp [splitL, hc, e]⟩

/-- Every text is either free of the separator or ends in a separator-free
segment that follows its last separator. -/
theorem last_segment_cases (sep : Char) (s : List Char) :
    sep ∉ s ∨ ∃ pre t, s = pre ++ sep :: t ∧ sep ∉ t := by
  induction s with
  | nil => simp
  | cons c cs ih =>
    rcases ih with h | ⟨pre, t, rfl, ht⟩
    · by_cases hc : c = sep
      · subst hc
        exact Or.inr ⟨[], cs, rfl, h⟩
      · left
        intro hm
        rcases List.mem_cons.1 hm with e | e
        · exact hc e.symm
        · exact h e
    · exact Or.inr ⟨c :: pre, t, rfl, ht⟩

/-- Go `strings.Split` of a text without the separator is the text alone. -/
theorem Split_no_sep (s : String) (sep : Char) (h : sep ∉ s.data) : Split s sep = [s] := by
  simp [Split, SplitN, splitL_no_sep sep s.data _ h]

/-- The last element of `strings.Split` is the text after the last separator. -/
theorem Split_getLast (pre t : String) (sep : Char) (ht : sep ∉ t.data) :
    (Split (pre ++ String.singleton sep ++ t) sep).getLast? = some t := by
  have hd : (pre ++ String.singleton sep ++ t).data = pre.data ++ sep :: t.data := by
    simp [String.data_append, String.singleton]
  have hcount : pre.data.count sep + 1 ≤ (pre.data ++ sep :: t.data).count sep := by
    simp [List.count_append, List.count_cons]
  obtain ⟨l, _, e⟩ := splitL_last sep pre.data t.data _ ht hcount
  unfold Split SplitN
  rw [if_neg (by decide), if_pos (by decide), hd, e]
  simp

/-- Go `strings.SplitN(s, sep, 2)` cuts at the first separator. -/
theorem SplitN_two (a b : String) (sep : Char) (h : sep ∉ a.data) :
    SplitN (a ++ String.singleton sep ++ b) sep 2 = [a, b] := by
  have hd : (a ++ String.singleton sep ++ b).data = a.data ++ sep :: b.data := by
    simp [String.data_append, String.singleton]
  simp [SplitN, hd, splitL_first sep a.data b.data 0 h, splitL_zero]

/-- Go `strings.SplitN(s, sep, 2)` of a text without the separator has one element. -/
theorem SplitN_two_no_sep (s : String) (sep : Char) (h : sep ∉ s.data) :
    SplitN s sep 2 = [s] := by
  simp [SplitN, splitL_no_sep sep s.data _ h]

end strings

/-! ## Lemmas on the file system -/

namespace FS

theorem find_remove_ne (fs : FS) (k q : String) (h : q ≠ k) :
    find (remove fs k) q = find fs q := by
  induction fs with
  | nil => rfl
  | cons e rest ih =>
    obtain ⟨k', c⟩ := e
    by_cases hk : k' = k
    · subst hk
      have hq : ¬ k' = q := fun e => h e.symm
      simp [remove, find, hq, ih]
    · by_cases hq : k' = q
      · subst hq
        simp [remove, find, hk]
      · simp [remove, find, hk, hq, ih]

theorem remove_remove (fs : FS) (k : String) : remove (remove fs k) k = remove fs k := by
  induction fs with
  | nil => rfl
  | cons e rest ih =>
    obtain ⟨k', c⟩ := e
    by_cases hk : k' = k
    · simp [remove, hk, ih]
    · simp [remove, hk, ih]

theorem read_write_same (fs : FS) (p c : String) : read (write fs p c) p = some c := by
  simp [read, write, find]

theorem read_write_of_ne (fs : FS) (p q c : String) (h : absPath q ≠ absPath p) :
    read (write fs p c) q = read fs q := by
  have h2 : ¬ absPath p = absPath q := fun e => h e.symm
  simp only [read, write, find, h2, if_false]
  exact find_remove_ne fs (absPath p) (absPath q) h

theorem write_write (fs : FS) (p c d : String) : write (write fs p c) p d = write fs p d := by
  simp [write, remove, remove_remove]

end FS

theorem absPath_main : absPath mainConfigFilePath = "/fluent-bit-init.conf" := by decide

theorem absPath_invoker : absPath invokerFilePath = "/fluent-bit-invoker.sh" := by decide

theorem absPath_staged (name : String) :
    absPath (s3FileFolderPath ++ "/" ++ name) = "/fluent-bit-init-s3-files/" ++ name := by
  apply String.ext
  simp [absPath, s3FileFolderPath, String.data_append]

/-! ## The metadata exports -/

theorem writeFields_eq (l : List (String × String)) (file : String) :
    writeFields l file = file ++ joinAll (l.map (fun f => exportLine f.1 f.2)) := by
  induction l generalizing file with
  | nil => simp [writeFields, joinAll]
  | cons f rest ih =>
    obtain ⟨name, value⟩ := f
    by_cases hv : value = ""
    · simp [writeFields, joinAll, exportLine, hv, ih]
    · simp [writeFields, joinAll, exportLine, hv, ih, String.append_assoc]

theorem setECSTaskMetadata_ok (metadata : ECSTaskMetadata) (filePath old : String)
    (st : State) (hopen : st.fs.read filePath = some old) :
    setECSTaskMetadata metadata filePath st
      = .ok { st with fs := st.fs.write filePath (old ++ exportLines metadata) } := by
  simp only [setECSTaskMetadata, openFile, hopen, writeFields_eq]
  rfl

/-- C4. `setECSTaskMetadata` appends to the invoker file, after what it already
holds, the export lines of the eight attributes in declaration order; each
line is `export <AttributeName>=<Value>` with a line break and the value
verbatim, and an attribute whose value is empty contributes nothing. Nothing
else changes. -/
theorem setECSTaskMetadata_export_lines (metadata : ECSTaskMetadata) (filePath old : String)
    (st : State) (hopen : st.fs.read filePath = some old) :
    setECSTaskMetadata metadata filePath st =
      .ok { st with fs := st.fs.write filePath (old ++ joinAll
        [exportLine "AWS_REGION" metadata.AWS_REGION,
         exportLine "ECS_CLUSTER" metadata.ECS_CLUSTER,
         exportLine "ECS_TASK_ARN" metadata.ECS_TASK_ARN,
         exportLine "ECS_TASK_ID" metadata.ECS_TASK_ID,
         exportLine "ECS_FAMILY" metadata.ECS_FAMILY,
         exportLine "ECS_LAUNCH_TYPE" metadata.ECS_LAUNCH_TYPE,
         exportLine "ECS_REVISION" metadata.ECS_REVISION,
         exportLine "ECS_TASK_DEFINITION" metadata.ECS_TASK_DEFINITION]) }
    ∧ (∀ name, exportLine name "" = "")
    ∧ (∀ name value, value ≠ "" →
        exportLine name value = "export " ++ name ++ "=" ++ value ++ "\n") := by
  refine ⟨setECSTaskMetadata_ok metadata filePath old st hopen, ?_, ?_⟩
  · intro name
    simp [exportLine]
  · intro name value hv
    simp [exportLine, hv]

/-- Witness of C4: a record with region, cluster and revision only, written to
the empty invoker file of `sampleState`, gives three lines in that order. -/
theorem setECSTaskMetadata_export_lines_witness :
    sampleState.fs.read "fluent-bit-invoker.sh" = some ""
    ∧ (setECSTaskMetadata { AWS_REGION := "us-west-2", ECS_CLUSTER := "demo", ECS_REVISION := "4" }
        "fluent-bit-invoker.sh" sampleState).toOption.bind
          (fun st => st.fs.read "fluent-bit-invoker.sh")
        = some "export AWS_REGION=us-west-2\nexport ECS_CLUSTER=demo\nexport ECS_REVISION=4\n" := by
  refine ⟨by decide, ?_⟩
  rw [(setECSTaskMetadata_export_lines
    { AWS_REGION := "us-west-2", ECS_CLUSTER := "demo", ECS_REVISION := "4" }
    "fluent-bit-invoker.sh" "" sampleState (by decide)).1]
  decide

/-! ## Classifying one fragment -/

theorem processConfigFile_on_parser_content (path content : String) (st : State)
    (hread : st.fs.read path = some content)
    (hc : strings.Contains content "[PARSER]" = true) :
    processConfigFile path st =
      .ok { st with fluentBitCommand := st.fluentBitCommand ++ " -R " ++ path
                    processed := st.processed ++ [(path, content)] } := by
  simp only [processConfigFile, hread, hc, if_true, updateCommand]

theorem processConfigFile_on_plain_content (path content mainConfig : String) (st : State)
    (hread : st.fs.read path = some content)
    (hc : strings.Contains content "[PARSER]" = false)
    (hm : st.fs.read mainConfigFilePath = some mainConfig) :
    processConfigFile path st =
      .ok { st with fs := st.fs.write mainConfigFilePath
                      (mainConfig ++ ("@INCLUDE " ++ path ++ "\n"))
                    processed := st.processed ++ [(path, content)] } := by
  simp only [processConfigFile, hread, hc, writeInclude, openFile, hm]
  rfl

theorem processConfigFile_unreadable (path : String) (st : State)
    (hread : st.fs.read path = none) :
    processConfigFile path st = fatalf ("Cannot open file: " ++ path) st := by
  simp only [processConfigFile, hread]

/-- C3. For a readable fragment at `path`, with the main config file in place:
when the content contains `[PARSER]`, `processConfigFile` succeeds, the
command gains exactly the suffix ` -R path` and no file changes; otherwise it
succeeds, the command is unchanged, the main config file gains exactly the
line `@INCLUDE path` and no other file changes. -/
theorem processConfigFile_effect (path content mainConfig : String) (st : State)
    (hread : st.fs.read path = some content)
    (hmain : st.fs.read "fluent-bit-init.conf" = some mainConfig) :
    ((∃ a b : String, content = a ++ "[PARSER]" ++ b) →
      ∃ st', processConfigFile path st = .ok st'
        ∧ st'.fluentBitCommand = st.fluentBitCommand ++ " -R " ++ path
        ∧ st'.fs = st.fs)
    ∧ ((¬ ∃ a b : String, content = a ++ "[PARSER]" ++ b) →
      ∃ st', processConfigFile path st = .ok st'
        ∧ st'.fluentBitCommand = st.fluentBitCommand
        ∧ st'.fs.read "fluent-bit-init.conf" = some (mainConfig ++ "@INCLUDE " ++ path ++ "\n")
        ∧ ∀ q, absPath q ≠ "/fluent-bit-init.conf" → st'.fs.read q = st.fs.read q) := by
  have hm : st.fs.read mainConfigFilePath = some mainConfig := hmain
  constructor
  · intro h
    have hc : strings.Contains content "[PARSER]" = true := (strings.Contains_iff _ _).2 h
    exact ⟨_, processConfigFile_on_parser_content path content st hread hc, rfl, rfl⟩
  · intro h
    have hc : strings.Contains content "[PARSER]" = false := by
      cases e : strings.Contains content "[PARSER]" with
      | false => rfl
      | true => exact absurd ((strings.Contains_iff _ _).1 e) h
    refine ⟨_, processConfigFile_on_plain_content path content mainConfig st hread hc hm, rfl, ?_, ?_⟩
    · show FS.read (FS.write st.fs mainConfigFilePath _) mainConfigFilePath = _
      rw [FS.read_write_same]
      simp [String.append_assoc]
    · intro q hq
      exact FS.read_write_of_ne _ _ _ _ (by rw [absPath_main]; exact hq)

/-- Witness of C3 on `sampleState`: the fragment `/parsers.conf` changes the
command only, the fragment `/outputs.conf` the main config file only. -/
theorem processConfigFile_effect_witness :
    (∃ st', processConfigFile "/parsers.conf" sampleState = .ok st'
        ∧ st'.fluentBitCommand = sampleState.fluentBitCommand ++ " -R " ++ "/parsers.conf"
        ∧ st'.fs = sampleState.fs)
    ∧ (∃ st', processConfigFile "/outputs.conf" sampleState = .ok st'
        ∧ st'.fluentBitCommand = sampleState.fluentBitCommand
        ∧ st'.fs.read "fluent-bit-init.conf" =
            some ("@INCLUDE /fluent-bit/etc/fluent-bit.conf\n" ++ "@INCLUDE " ++ "/outputs.conf" ++ "\n")
        ∧ ∀ q, absPath q ≠ "/fluent-bit-init.conf" → st'.fs.read q = sampleState.fs.read q) :=
  ⟨(processConfigFile_effect "/parsers.conf" "[PARSER]\n    Name json\n"
      "@INCLUDE /fluent-bit/etc/fluent-bit.conf\n" sampleState (by decide) (by decide)).1
      ⟨"", "\n    Name json\n", by decide⟩,
   (processConfigFile_effect "/outputs.conf" "[OUTPUT]\n    Name stdout\n"
      "@INCLUDE /fluent-bit/etc/fluent-bit.conf\n" sampleState (by decide) (by decide)).2
      (fun h => absurd ((strings.Contains_iff _ _).2 h) (by decide))⟩

/-! ## Resolving a remote reference -/

theorem bucketAndFile_of_drop (arn bucket key : String) (hlen : 13 ≤ arn.data.length)
    (hdrop : arn.data.drop 13 = bucket.data ++ '/' :: key.data) (hb : '/' ∉ bucket.data) :
    bucketAndFile arn = .ok (bucket, key) := by
  have hs : String.mk (arn.data.drop 13) = bucket ++ String.singleton '/' ++ key := by
    apply String.ext
    simp [hdrop, String.data_append, String.singleton]
  simp only [bucketAndFile, strings.sliceFrom, hlen, if_true, hs,
    strings.SplitN_two bucket key '/' hb]

/-- C8, as the code has it. When the part of the reference before the bucket
(`scheme:partition:service:::`) is exactly 13 bytes long, as it is for
`arn:aws:s3:::`, and the bucket contains no `/`, `getS3ConfigFile` resolves
the bucket name to exactly the bucket and the object key to exactly the key
(which may contain `/`), and goes on to look up and download that object. -/
theorem getS3ConfigFile_resolves (scheme partition service bucket key : String)
    (hlen : scheme.length + partition.length + service.length = 8)
    (hb : '/' ∉ bucket.data) :
    bucketAndFile (scheme ++ ":" ++ partition ++ ":" ++ service ++ ":::" ++ bucket ++ "/" ++ key)
      = .ok (bucket, key)
    ∧ ∀ (w : World) (st : State),
        getS3ConfigFile w
            (scheme ++ ":" ++ partition ++ ":" ++ service ++ ":::" ++ bucket ++ "/" ++ key) st
          = match w.getBucketLocation
                (if !st.exists3Client then createS3Client st else st).s3ClientRegion bucket with
            | none =>
              fatalf ("Cannot get bucket region of " ++ bucket ++ " + " ++ key)
                (if !st.exists3Client then createS3Client st else st)
            | some locationConstraint =>
              downloadS3ConfigFile
                (w.download (if locationConstraint = "" then "us-east-1" else locationConstraint))
                key bucket (if !st.exists3Client then createS3Client st else st) := by
  have hl : scheme.data.length + partition.data.length + service.data.length = 8 := hlen
  have key1 : bucketAndFile
      (scheme ++ ":" ++ partition ++ ":" ++ service ++ ":::" ++ bucket ++ "/" ++ key)
      = .ok (bucket, key) := by
    have hd : (scheme ++ ":" ++ partition ++ ":" ++ service ++ ":::" ++ bucket ++ "/" ++ key).data
        = (scheme.data ++ ':' :: (partition.data ++ ':' :: (service.data ++ [':', ':', ':'])))
          ++ (bucket.data ++ '/' :: key.data) := by
      simp [String.data_append]
    have hp : (scheme.data ++ ':' :: (partition.data ++ ':' :: (service.data ++ [':', ':', ':']))).length
        = 13 := by
      simp only [List.length_append, List.length_cons, List.length_nil]
      omega
    apply bucketAndFile_of_drop
    · rw [hd, List.length_append, hp]
      omega
    · rw [hd, List.drop_left' hp]
    · exact hb
  refine ⟨key1, ?_⟩
  intro w st
  simp only [getS3ConfigFile, key1]

/-- Witness of C8: the reference of the source comment,
`arn:aws:s3:::ygloa-bucket/s3_parser.conf`, gives bucket `ygloa-bucket` and
key `s3_parser.conf`. -/
theorem getS3ConfigFile_resolves_witness :
    bucketAndFile "arn:aws:s3:::ygloa-bucket/s3_parser.conf"
      = .ok ("ygloa-bucket", "s3_parser.conf") :=
  (getS3ConfigFile_resolves "arn" "aws" "s3" "ygloa-bucket" "s3_parser.conf"
    (by decide) (by decide)).1

/-- C8 fails as stated. With the partition `aws-cn` the part before the bucket
is 16 bytes long; the code still cuts after 13 bytes and takes `:::ygloa-bucket`
for the bucket name, so that the lookup of that bucket fails although S3 has
the bucket `ygloa-bucket`. -/
theorem other_partition_wrong_bucket :
    "arn:aws-cn:s3:::ygloa-bucket/s3_parser.conf"
        = "arn" ++ ":" ++ "aws-cn" ++ ":" ++ "s3" ++ ":::" ++ "ygloa-bucket" ++ "/" ++ "s3_parser.conf"
    ∧ bucketAndFile "arn:aws-cn:s3:::ygloa-bucket/s3_parser.conf"
        = .ok (":::ygloa-bucket", "s3_parser.conf")
    ∧ (getS3ConfigFile sampleWorld "arn:aws-cn:s3:::ygloa-bucket/s3_parser.conf" sampleState).toOption
        = none
    ∧ ¬ (∀ scheme partition service bucket key : String,
          bucket ≠ "" → '/' ∉ bucket.data → ':' ∉ bucket.data →
          bucketAndFile
              (scheme ++ ":" ++ partition ++ ":" ++ service ++ ":::" ++ bucket ++ "/" ++ key)
            = .ok (bucket, key)) := by
  refine ⟨by decide, by decide, by decide, ?_⟩
  intro h
  exact absurd (h "arn" "aws-cn" "s3" "ygloa-bucket" "s3_parser.conf"
    (by decide) (by decide) (by decide)) (by decide)

/-! ## The last segment of a path -/

/-- Go `strings.Split(r, "/")` ends with the final segment of `r`: a text free of
`/` that is all of `r` or what follows the last `/` of `r`. -/
theorem Split_last_segment (r : String) :
    ∃ t : String, '/' ∉ t.data ∧ (r = t ∨ ∃ pre : String, r = pre ++ "/" ++ t)
      ∧ lastElem (strings.Split r '/') = some t := by
  rcases strings.last_segment_cases '/' r.data with h | ⟨pre, t, he, ht⟩
  · exact ⟨r, h, Or.inl rfl, by simp [lastElem, strings.Split_no_sep r '/' h]⟩
  · have hr : r = String.mk pre ++ "/" ++ String.mk t := by
      apply String.ext
      simp [String.data_append, he]
    refine ⟨String.mk t, ht, Or.inr ⟨String.mk pre, hr⟩, ?_⟩
    rw [hr]
    exact strings.Split_getLast (String.mk pre) (String.mk t) '/' ht

theorem lastElem_Split_of_no_slash (s : String) (hs : '/' ∉ s.data) :
    lastElem (strings.Split s '/') = some s := by
  simp [lastElem, strings.Split_no_sep s '/' hs]

theorem lastElem_Split_of_slash (pre s : String) (hs : '/' ∉ s.data) :
    lastElem (strings.Split (pre ++ "/" ++ s) '/') = some s :=
  strings.Split_getLast pre s '/' hs

theorem stagedFilePath_of_segment (key s : String) (hs : '/' ∉ s.data)
    (hk : key = s ∨ ∃ pre : String, key = pre ++ "/" ++ s) :
    stagedFilePath key = some ("fluent-bit-init-s3-files/" ++ s) := by
  have hl : lastElem (strings.SplitN key '/' (-1)) = some s := by
    rcases hk with rfl | ⟨pre, rfl⟩
    · exact lastElem_Split_of_no_slash _ hs
    · exact lastElem_Split_of_slash pre s hs
  simp only [stagedFilePath, hl]
  rfl

theorem isDirPath_staged (s : String) (hs : '/' ∉ s.data)
    (h1 : s ≠ "") (h2 : s ≠ ".") (h3 : s ≠ "..") :
    isDirPath ("fluent-bit-init-s3-files/" ++ s) = false := by
  have hl : lastElem (strings.Split ("fluent-bit-init-s3-files/" ++ s) '/') = some s :=
    lastElem_Split_of_slash "fluent-bit-init-s3-files" s hs
  simp [isDirPath, hl, h1, h2, h3]

theorem downloadS3ConfigFile_ok (s3Downloader : String → String → Option String)
    (s3FilePath bucketName filePath bytes : String) (st : State)
    (hp : stagedFilePath s3FilePath = some filePath) (hd : isDirPath filePath = false)
    (hdl : s3Downloader bucketName s3FilePath = some bytes) :
    downloadS3ConfigFile s3Downloader s3FilePath bucketName st
      = .ok { st with fs := st.fs.write filePath bytes } := by
  simp [downloadS3ConfigFile, hp, createFile, hd, hdl, FS.write_write]

/-- C10. For every object key there is a final segment `s`, free of `/`, that is
the whole key or what follows its last `/`, and `downloadS3ConfigFile` stages
the object at `fluent-bit-init-s3-files/s`: that is the path it computes, and
when `s` names a file and the transfer succeeds the object's bytes are stored
there, whatever the bucket. Every key with the same final segment gets the
same path. -/
theorem downloadS3ConfigFile_staged_path (key : String) :
    ∃ s : String, '/' ∉ s.data
      ∧ (key = s ∨ ∃ pre : String, key = pre ++ "/" ++ s)
      ∧ stagedFilePath key = some ("fluent-bit-init-s3-files/" ++ s)
      ∧ (∀ key' : String, (key' = s ∨ ∃ pre' : String, key' = pre' ++ "/" ++ s) →
          stagedFilePath key' = stagedFilePath key)
      ∧ (∀ (s3Downloader : String → String → Option String) (bucketName bytes : String)
            (st : State),
          s ≠ "" → s ≠ "." → s ≠ ".." → s3Downloader bucketName key = some bytes →
          downloadS3ConfigFile s3Downloader key bucketName st
            = .ok { st with fs := st.fs.write ("fluent-bit-init-s3-files/" ++ s) bytes }) := by
  obtain ⟨s, hs, hk, _⟩ := Split_last_segment key
  have hp := stagedFilePath_of_segment key s hs hk
  refine ⟨s, hs, hk, hp, ?_, ?_⟩
  · intro key' hk'
    rw [hp, stagedFilePath_of_segment key' s hs hk']
  · intro dl bucket bytes st h1 h2 h3 hdl
    exact downloadS3ConfigFile_ok dl key bucket _ bytes st hp (isDirPath_staged s hs h1 h2 h3) hdl

/-- Witness of C10: the keys `conf/parsers.conf` (bucket `a`) and
`other/dir/parsers.conf` (bucket `b`) are both staged at
`fluent-bit-init-s3-files/parsers.conf`, the second download replacing the
first. -/
theorem downloadS3ConfigFile_staged_path_witness :
    (∃ s : String, stagedFilePath "conf/parsers.conf" = some ("fluent-bit-init-s3-files/" ++ s)
      ∧ '/' ∉ s.data)
    ∧ stagedFilePath "conf/parsers.conf" = some "fluent-bit-init-s3-files/parsers.conf"
    ∧ stagedFilePath "other/dir/parsers.conf" = some "fluent-bit-init-s3-files/parsers.conf"
    ∧ ((downloadS3ConfigFile (fun _ _ => some "first") "conf/parsers.conf" "a" sampleState).bind
        (downloadS3ConfigFile (fun _ _ => some "second") "other/dir/parsers.conf" "b")).toOption.map
          (fun st => (st.fs.read "fluent-bit-init-s3-files/parsers.conf",
                      st.fs.entries "fluent-bit-init-s3-files"))
        = some (some "second", ["parsers.conf"]) := by
  refine ⟨?_, by decide, by decide, by decide⟩
  obtain ⟨s, hs, _, hp, _⟩ := downloadS3ConfigFile_staged_path "conf/parsers.conf"
  exact ⟨s, hp, hs⟩

/-! ## The metadata record -/

theorem getECSTaskMetadata_of_response (w : World) (body : String)
    (hend : Getenv w.environ "ECS_CONTAINER_METADATA_URI_V4" ≠ "")
    (hget : w.httpGet (Getenv w.environ "ECS_CONTAINER_METADATA_URI_V4" ++ "/task") = some body)
    (taskID : String)
    (hid : lastElem (strings.Split
      ((arn.Parse (w.unmarshal body).1.ECS_TASK_ARN).getD {}).Resource '/') = some taskID) :
    getECSTaskMetadata w = .ok { (w.unmarshal body).1 with
      ECS_TASK_ID := taskID
      AWS_REGION := ((arn.Parse (w.unmarshal body).1.ECS_TASK_ARN).getD {}).Region
      ECS_TASK_DEFINITION :=
        (w.unmarshal body).1.ECS_FAMILY ++ ":" ++ (w.unmarshal body).1.ECS_REVISION } := by
  simp only [getECSTaskMetadata, hend, if_false, hget, hid]

/-- C5. When the endpoint is set, a response is received and the task ARN of the
decoded document parses, `getECSTaskMetadata` returns a record whose task id
is the last `/`-separated segment of the ARN's resource part (free of `/`, and
the whole resource or what follows its last `/`), whose task definition is
family, `:`, revision, whose region is the ARN's region, and whose other
attributes are as decoded. For the document with cluster `demo`, task ARN
`arn:aws:ecs:us-west-2:111:task/demo/abc123`, family `svc` and revision `4`
the task id is `abc123`, the task definition `svc:4`, the region `us-west-2`,
and the export lines start with `export AWS_REGION=us-west-2` and
`export ECS_CLUSTER=demo`. -/
theorem getECSTaskMetadata_derived (w : World) (body : String) (a : ARN)
    (hend : Getenv w.environ "ECS_CONTAINER_METADATA_URI_V4" ≠ "")
    (hget : w.httpGet (Getenv w.environ "ECS_CONTAINER_METADATA_URI_V4" ++ "/task") = some body)
    (harn : arn.Parse (w.unmarshal body).1.ECS_TASK_ARN = some a) :
    (∃ (md : ECSTaskMetadata) (taskID : String), getECSTaskMetadata w = .ok md
      ∧ md.ECS_TASK_ID = taskID
      ∧ '/' ∉ taskID.data
      ∧ (a.Resource = taskID ∨ ∃ pre : String, a.Resource = pre ++ "/" ++ taskID)
      ∧ md.ECS_TASK_DEFINITION
          = (w.unmarshal body).1.ECS_FAMILY ++ ":" ++ (w.unmarshal body).1.ECS_REVISION
      ∧ md.AWS_REGION = a.Region
      ∧ md.ECS_CLUSTER = (w.unmarshal body).1.ECS_CLUSTER
      ∧ md.ECS_TASK_ARN = (w.unmarshal body).1.ECS_TASK_ARN
      ∧ md.ECS_FAMILY = (w.unmarshal body).1.ECS_FAMILY
      ∧ md.ECS_LAUNCH_TYPE = (w.unmarshal body).1.ECS_LAUNCH_TYPE
      ∧ md.ECS_REVISION = (w.unmarshal body).1.ECS_REVISION)
    ∧ getECSTaskMetadata metadataWorld = .ok
        { AWS_REGION := "us-west-2"
          ECS_CLUSTER := "demo"
          ECS_TASK_ARN := "arn:aws:ecs:us-west-2:111:task/demo/abc123"
          ECS_TASK_ID := "abc123"
          ECS_FAMILY := "svc"
          ECS_LAUNCH_TYPE := ""
          ECS_REVISION := "4"
          ECS_TASK_DEFINITION := "svc:4" }
    ∧ ((getECSTaskMetadata metadataWorld).toOption.bind (fun md =>
        (setECSTaskMetadata md "fluent-bit-invoker.sh" sampleState).toOption.bind
          (fun st => st.fs.read "fluent-bit-invoker.sh")))
        = some ("export AWS_REGION=us-west-2\n" ++ "export ECS_CLUSTER=demo\n"
            ++ "export ECS_TASK_ARN=arn:aws:ecs:us-west-2:111:task/demo/abc123\n"
            ++ "export ECS_TASK_ID=abc123\n" ++ "export ECS_FAMILY=svc\n"
            ++ "export ECS_REVISION=4\n" ++ "export ECS_TASK_DEFINITION=svc:4\n") := by
  refine ⟨?_, by decide, by decide⟩
  obtain ⟨taskID, hno, hres, hlast⟩ := Split_last_segment a.Resource
  have hid : lastElem (strings.Split
      ((arn.Parse (w.unmarshal body).1.ECS_TASK_ARN).getD {}).Resource '/') = some taskID := by
    rw [harn]
    exact hlast
  refine ⟨_, taskID, getECSTaskMetadata_of_response w body hend hget taskID hid,
    rfl, hno, hres, rfl, ?_, rfl, rfl, rfl, rfl, rfl⟩
  show ((arn.Parse (w.unmarshal body).1.ECS_TASK_ARN).getD {}).Region = a.Region
  rw [harn]
  rfl

/-- Witness of C5 on `metadataWorld`: the task id is `abc123`, free of `/`. -/
theorem getECSTaskMetadata_derived_witness :
    ∃ (md : ECSTaskMetadata), getECSTaskMetadata metadataWorld = .ok md
      ∧ md.ECS_TASK_ID = "abc123" ∧ md.ECS_TASK_DEFINITION = "svc:4"
      ∧ md.AWS_REGION = "us-west-2" := by
  obtain ⟨md, taskID, h, _, _, _, hdef, hreg, _⟩ :=
    (getECSTaskMetadata_derived metadataWorld "task document"
      { Partition := "aws", Service := "ecs", Region := "us-west-2", AccountID := "111",
        Resource := "task/demo/abc123" }
      (by decide) (by decide) (by decide)).1
  refine ⟨md, h, ?_, hdef, hreg⟩
  have h2 : getECSTaskMetadata metadataWorld = .ok
        { AWS_REGION := "us-west-2"
          ECS_CLUSTER := "demo"
          ECS_TASK_ARN := "arn:aws:ecs:us-west-2:111:task/demo/abc123"
          ECS_TASK_ID := "abc123"
          ECS_FAMILY := "svc"
          ECS_LAUNCH_TYPE := ""
          ECS_REVISION := "4"
          ECS_TASK_DEFINITION := "svc:4" } := by decide
  rw [h2] at h
  cases h
  rfl

/-! ## Soft failures of the metadata retrieval -/

theorem arn_Parse_empty : arn.Parse "" = none := by decide

/-- C7, as the code has it. When the endpoint variable is unset,
`getECSTaskMetadata` returns the record with every attribute empty and
`setECSTaskMetadata` leaves the invoker file as it is. When a response was
received and the task ARN cannot be parsed (which is the case whenever
decoding left the record untouched, as for a body that is not valid JSON),
it does not abort either: region and task id are empty, and the attributes
decoded from the response are kept as decoded. -/
theorem getECSTaskMetadata_soft_failure (w : World) :
    (Getenv w.environ "ECS_CONTAINER_METADATA_URI_V4" = "" →
      getECSTaskMetadata w = .ok {}
      ∧ ∀ (filePath old : String) (st : State), st.fs.read filePath = some old →
          setECSTaskMetadata {} filePath st = .ok { st with fs := st.fs.write filePath old })
    ∧ (∀ body : String, Getenv w.environ "ECS_CONTAINER_METADATA_URI_V4" ≠ "" →
        w.httpGet (Getenv w.environ "ECS_CONTAINER_METADATA_URI_V4" ++ "/task") = some body →
        arn.Parse (w.unmarshal body).1.ECS_TASK_ARN = none →
        ∃ md : ECSTaskMetadata, getECSTaskMetadata w = .ok md
          ∧ md.AWS_REGION = "" ∧ md.ECS_TASK_ID = ""
          ∧ md.ECS_CLUSTER = (w.unmarshal body).1.ECS_CLUSTER
          ∧ md.ECS_TASK_ARN = (w.unmarshal body).1.ECS_TASK_ARN
          ∧ md.ECS_FAMILY = (w.unmarshal body).1.ECS_FAMILY
          ∧ md.ECS_LAUNCH_TYPE = (w.unmarshal body).1.ECS_LAUNCH_TYPE
          ∧ md.ECS_REVISION = (w.unmarshal body).1.ECS_REVISION)
    ∧ (∀ body : String, (w.unmarshal body).1 = {} →
        arn.Parse (w.unmarshal body).1.ECS_TASK_ARN = none) := by
  refine ⟨?_, ?_, ?_⟩
  · intro hend
    refine ⟨by simp only [getECSTaskMetadata, hend, if_true], ?_⟩
    intro filePath old st hopen
    rw [setECSTaskMetadata_ok {} filePath old st hopen]
    simp [exportLines, joinAll, exportLine]
  · intro body hend hget harn
    have hid : lastElem (strings.Split
        ((arn.Parse (w.unmarshal body).1.ECS_TASK_ARN).getD {}).Resource '/') = some "" := by
      rw [harn]
      decide
    refine ⟨_, getECSTaskMetadata_of_response w body hend hget "" hid,
      ?_, rfl, rfl, rfl, rfl, rfl, rfl⟩
    show ((arn.Parse (w.unmarshal body).1.ECS_TASK_ARN).getD {}).Region = ""
    rw [harn]
    rfl
  · intro body h
    rw [h]
    exact arn_Parse_empty

/-- Witness of C7 as amended: `sampleWorld` has no endpoint variable and gets
the empty record; `brokenArnWorld` has an unparseable task ARN and gets a
record with empty region and task id that keeps the decoded cluster. -/
theorem getECSTaskMetadata_soft_failure_witness :
    getECSTaskMetadata sampleWorld = .ok {}
    ∧ ∃ md : ECSTaskMetadata, getECSTaskMetadata brokenArnWorld = .ok md
        ∧ md.AWS_REGION = "" ∧ md.ECS_TASK_ID = "" ∧ md.ECS_CLUSTER = "demo" := by
  refine ⟨((getECSTaskMetadata_soft_failure sampleWorld).1 (by decide)).1, ?_⟩
  obtain ⟨md, h, hr, hi, hc, _⟩ :=
    (getECSTaskMetadata_soft_failure brokenArnWorld).2.1 "task document"
      (by decide) (by decide) (by decide)
  exact ⟨md, h, hr, hi, hc⟩

/-- C7 fails as stated. With a task ARN that cannot be parsed the record keeps
the decoded cluster, family and revision and gets the task definition
`svc:4`, and five export lines are written; with a body that is not valid
JSON the record has the task definition `:`, and one export line is written. -/
theorem soft_failure_record_not_empty :
    arn.Parse "task/demo/abc123" = none
    ∧ getECSTaskMetadata brokenArnWorld = .ok
        { ECS_CLUSTER := "demo"
          ECS_TASK_ARN := "task/demo/abc123"
          ECS_FAMILY := "svc"
          ECS_REVISION := "4"
          ECS_TASK_DEFINITION := "svc:4" }
    ∧ ((getECSTaskMetadata brokenArnWorld).toOption.bind (fun md =>
        (setECSTaskMetadata md "fluent-bit-invoker.sh" sampleState).toOption.bind
          (fun st => st.fs.read "fluent-bit-invoker.sh")))
        = some ("export ECS_CLUSTER=demo\n" ++ "export ECS_TASK_ARN=task/demo/abc123\n"
            ++ "export ECS_FAMILY=svc\n" ++ "export ECS_REVISION=4\n"
            ++ "export ECS_TASK_DEFINITION=svc:4\n")
    ∧ getECSTaskMetadata brokenJsonWorld = .ok { ECS_TASK_DEFINITION := ":" }
    ∧ ((getECSTaskMetadata brokenJsonWorld).toOption.bind (fun md =>
        (setECSTaskMetadata md "fluent-bit-invoker.sh" sampleState).toOption.bind
          (fun st => st.fs.read "fluent-bit-invoker.sh")))
        = some "export ECS_TASK_DEFINITION=:\n" := by
  refine ⟨by decide, by decide, by decide, by decide, by decide⟩

/-! ## What each step leaves alone -/

theorem joinAll_append (l₁ l₂ : List String) : joinAll (l₁ ++ l₂) = joinAll l₁ ++ joinAll l₂ := by
  induction l₁ with
  | nil => simp [joinAll]
  | cons x xs ih => simp [joinAll, ih, String.append_assoc]

theorem parserFlags_append (l₁ l₂ : List (String × String)) :
    parserFlags (l₁ ++ l₂) = parserFlags l₁ ++ parserFlags l₂ := by
  simp [parserFlags, joinAll_append]

theorem includeLines_append (l₁ l₂ : List (String × String)) :
    includeLines (l₁ ++ l₂) = includeLines l₁ ++ includeLines l₂ := by
  simp [includeLines, joinAll_append]

theorem parserFlags_snoc (l : List (String × String)) (path content : String) :
    parserFlags (l ++ [(path, content)])
      = parserFlags l ++ (if strings.Contains content "[PARSER]" then " -R " ++ path else "") := by
  rw [parserFlags_append]
  by_cases h : strings.Contains content "[PARSER]" = true
  · simp [parserFlags, isParserFragment, h, joinAll]
  · simp [parserFlags, isParserFragment, h, joinAll]

theorem includeLines_snoc (l : List (String × String)) (path content : String) :
    includeLines (l ++ [(path, content)])
      = includeLines l
        ++ (if strings.Contains content "[PARSER]" then "" else "@INCLUDE " ++ path ++ "\n") := by
  rw [includeLines_append]
  by_cases h : strings.Contains content "[PARSER]" = true
  · simp [includeLines, isParserFragment, h, joinAll]
  · simp [includeLines, isParserFragment, h, joinAll]

/-- One fragment more keeps the outputs assembled. -/
theorem processConfigFile_assembled (path : String) (st st' : State)
    (h : processConfigFile path st = .ok st') (inv : Assembled st) :
    Assembled st' ∧ st'.processed.map Prod.fst = st.processed.map Prod.fst ++ [path] := by
  cases hread : st.fs.read path with
  | none =>
    rw [processConfigFile_unreadable path st hread] at h
    cases h
  | some content =>
    cases hc : strings.Contains content "[PARSER]" with
    | true =>
      rw [processConfigFile_on_parser_content path content st hread hc] at h
      cases h
      refine ⟨⟨?_, ?_⟩, by simp⟩
      · show st.fluentBitCommand ++ " -R " ++ path = _
        rw [inv.command, parserFlags_snoc, hc]
        simp [String.append_assoc]
      · show st.fs.read mainConfigFilePath = _
        rw [inv.mainConfig, includeLines_snoc, hc]
        simp
    | false =>
      rw [processConfigFile_on_plain_content path content _ st hread hc inv.mainConfig] at h
      cases h
      refine ⟨⟨?_, ?_⟩, by simp⟩
      · show st.fluentBitCommand = _
        rw [inv.command, parserFlags_snoc, hc]
        simp
      · show FS.read (FS.write st.fs mainConfigFilePath _) mainConfigFilePath = _
        rw [FS.read_write_same, includeLines_snoc, hc]
        simp [String.append_assoc]

theorem insideDir_staged (name : String) :
    insideDir s3FileFolderPath (s3FileFolderPath ++ "/" ++ name) = true := by
  unfold insideDir
  rw [absPath_staged, strings.startsWithL_iff]
  exact ⟨name.data, by simp [String.data_append]; rfl⟩

theorem absPath_ne_staged (name q : String) (hq : insideDir s3FileFolderPath q = false) :
    absPath q ≠ absPath (s3FileFolderPath ++ "/" ++ name) := by
  intro e
  have h := insideDir_staged name
  unfold insideDir at h hq
  rw [← e, hq] at h
  cases h

theorem stagedFilePath_form (key p : String) (h : stagedFilePath key = some p) :
    ∃ name, p = s3FileFolderPath ++ "/" ++ name := by
  unfold stagedFilePath at h
  cases hl : lastElem (strings.SplitN key '/' (-1)) with
  | none => simp [hl] at h
  | some name =>
    simp only [hl, Option.some.injEq] at h
    exact ⟨name, h.symm⟩

namespace FS

theorem entries_names_remove (fs : FS) (k : String) (f : String × String → Option String)
    (hk : ∀ c, f (k, c) = none) :
    (remove fs k).filterMap f = fs.filterMap f := by
  induction fs with
  | nil => rfl
  | cons e rest ih =>
    obtain ⟨k', c⟩ := e
    by_cases h : k' = k
    · subst h
      simp [remove, List.filterMap_cons, hk, ih]
    · simp [remove, h, List.filterMap_cons, ih]

theorem entries_write_outside (fs : FS) (dir p c : String) (h : insideDir dir p = false) :
    entries (write fs p c) dir = entries fs dir := by
  unfold insideDir at h
  unfold entries write
  simp only []
  rw [List.filterMap_cons]
  simp only [h]
  rw [entries_names_remove]
  · rfl
  · intro c
    simp only [h]
    rfl

end FS

/-- Staging a remote object touches neither the command nor the history nor
any file outside the staging directory, whether it succeeds or aborts. -/
theorem downloadS3ConfigFile_frame (dl : String → String → Option String)
    (key bucket : String) (st : State) :
    (finalState (downloadS3ConfigFile dl key bucket st)).fluentBitCommand = st.fluentBitCommand
    ∧ (finalState (downloadS3ConfigFile dl key bucket st)).processed = st.processed
    ∧ ∀ q, insideDir s3FileFolderPath q = false →
        (finalState (downloadS3ConfigFile dl key bucket st)).fs.read q = st.fs.read q := by
  unfold downloadS3ConfigFile
  cases hp : stagedFilePath key with
  | none => exact ⟨rfl, rfl, fun _ _ => rfl⟩
  | some filePath =>
    obtain ⟨name, rfl⟩ := stagedFilePath_form key _ hp
    cases hd : isDirPath (s3FileFolderPath ++ "/" ++ name) with
    | true =>
      simp only [createFile, hd, if_true, fatalf]
      exact ⟨rfl, rfl, fun _ _ => rfl⟩
    | false =>
      cases hdl : dl bucket key with
      | none =>
        simp only [createFile, hd, fatalf, finalState]
        refine ⟨rfl, rfl, fun q hq => ?_⟩
        exact FS.read_write_of_ne _ _ _ _ (absPath_ne_staged name q hq)
      | some bytes =>
        simp only [createFile, hd, finalState]
        refine ⟨rfl, rfl, fun q hq => ?_⟩
        show FS.read (FS.write (FS.write st.fs _ "") _ bytes) q = _
        rw [FS.write_write]
        exact FS.read_write_of_ne _ _ _ _ (absPath_ne_staged name q hq)

/-- Fetching a remote source touches neither the command nor the history nor
any file outside the staging directory, whether it succeeds or aborts. -/
theorem getS3ConfigFile_frame (w : World) (arn : String) (st : State) :
    (finalState (getS3ConfigFile w arn st)).fluentBitCommand = st.fluentBitCommand
    ∧ (finalState (getS3ConfigFile w arn st)).processed = st.processed
    ∧ ∀ q, insideDir s3FileFolderPath q = false →
        (finalState (getS3ConfigFile w arn st)).fs.read q = st.fs.read q := by
  have hst : ∀ st1 : State, st1 = (if !st.exists3Client then createS3Client st else st) →
      st1.fluentBitCommand = st.fluentBitCommand ∧ st1.processed = st.processed
        ∧ st1.fs = st.fs := by
    intro st1 e
    subst e
    cases st.exists3Client <;> simp [createS3Client]
  generalize hg : (if !st.exists3Client then createS3Client st else st) = st1 at hst
  obtain ⟨h1, h2, h3⟩ := hst st1 rfl
  unfold getS3ConfigFile
  simp only [hg]
  cases hb : bucketAndFile arn with
  | error f => exact ⟨h1, h2, fun q _ => by show st1.fs.read q = _; rw [h3]⟩
  | ok bk =>
    obtain ⟨bucket, key⟩ := bk
    cases hloc : w.getBucketLocation st1.s3ClientRegion bucket with
    | none =>
      simp only [hloc]
      exact ⟨h1, h2, fun q _ => by show st1.fs.read q = _; rw [h3]⟩
    | some loc =>
      simp only [hloc]
      obtain ⟨g1, g2, g3⟩ := downloadS3ConfigFile_frame
        (w.download (if loc = "" then "us-east-1" else loc)) key bucket st1
      exact ⟨g1.trans h1, g2.trans h2, fun q hq => by rw [← h3]; exact g3 q hq⟩

/-- Processing a fragment touches no file other than the main config file,
whether it succeeds or aborts. -/
theorem processConfigFile_frame (path : String) (st : State) :
    (∀ q, absPath q ≠ "/fluent-bit-init.conf" →
        (finalState (processConfigFile path st)).fs.read q = st.fs.read q)
    ∧ (finalState (processConfigFile path st)).fs.entries s3FileFolderPath
        = st.fs.entries s3FileFolderPath := by
  cases hread : st.fs.read path with
  | none =>
    rw [processConfigFile_unreadable path st hread]
    exact ⟨fun _ _ => rfl, rfl⟩
  | some content =>
    cases hc : strings.Contains content "[PARSER]" with
    | true =>
      rw [processConfigFile_on_parser_content path content st hread hc]
      exact ⟨fun _ _ => rfl, rfl⟩
    | false =>
      cases hm : st.fs.read mainConfigFilePath with
      | none =>
        have e : processConfigFile path st
            = fatalf ("Unable to read " ++ mainConfigFilePath)
                { st with processed := st.processed ++ [(path, content)] } := by
          simp only [processConfigFile, hread, hc, writeInclude, openFile]
          simp [hm, fatalf]
        rw [e]
        exact ⟨fun _ _ => rfl, rfl⟩
      | some mainConfig =>
        rw [processConfigFile_on_plain_content path content mainConfig st hread hc hm]
        refine ⟨fun q hq => ?_, ?_⟩
        · exact FS.read_write_of_ne _ _ _ _ (by rw [absPath_main]; exact hq)
        · exact FS.entries_write_outside _ _ _ _ (by decide)

/-! ## The two loops -/

theorem s3_step_frame (b : Bool) (w : World) (v : String) (st st1 : State)
    (h : (if b then getS3ConfigFile w v st else .ok st) = .ok st1) :
    st1.fluentBitCommand = st.fluentBitCommand ∧ st1.processed = st.processed
      ∧ ∀ q, insideDir s3FileFolderPath q = false → st1.fs.read q = st.fs.read q := by
  cases b with
  | false =>
    simp only [Bool.false_eq_true, if_false, Except.ok.injEq] at h
    subst h
    exact ⟨rfl, rfl, fun _ _ => rfl⟩
  | true =>
    simp only [if_true] at h
    have f := getS3ConfigFile_frame w v st
    rw [h] at f
    exact f

theorem s3_step_assembled (b : Bool) (w : World) (v : String) (st st1 : State)
    (h : (if b then getS3ConfigFile w v st else .ok st) = .ok st1) (inv : Assembled st) :
    Assembled st1 ∧ st1.processed = st.processed := by
  obtain ⟨h1, h2, h3⟩ := s3_step_frame b w v st st1 h
  refine ⟨⟨?_, ?_⟩, h2⟩
  · rw [h1, h2, inv.command]
  · rw [h3 mainConfigFilePath (by decide), h2, inv.mainConfig]

theorem file_step_assembled (b : Bool) (v : String) (st st1 : State)
    (h : (if b then processConfigFile v st else .ok st) = .ok st1) (inv : Assembled st) :
    Assembled st1
      ∧ st1.processed.map Prod.fst = st.processed.map Prod.fst ++ (if b then [v] else []) := by
  cases b with
  | false =>
    simp only [Bool.false_eq_true, if_false, Except.ok.injEq] at h
    subst h
    exact ⟨inv, by simp⟩
  | true =>
    simp only [if_true] at h
    exact processConfigFile_assembled v st st1 h inv

/-- The scan of the environment keeps the outputs assembled and processes
exactly the local-file sources, in the order of the environment block. -/
theorem getAllConfigFilesLoop_assembled (w : World) (envs : List String) (st st' : State)
    (h : getAllConfigFilesLoop w envs st = .ok st') (inv : Assembled st) :
    Assembled st'
      ∧ st'.processed.map Prod.fst = st.processed.map Prod.fst ++ localFileSources envs := by
  induction envs generalizing st with
  | nil =>
    simp only [getAllConfigFilesLoop, Except.ok.injEq] at h
    subst h
    exact ⟨inv, by simp [localFileSources]⟩
  | cons env envs ih =>
    unfold getAllConfigFilesLoop at h
    unfold localFileSources
    rcases hs : strings.SplitN env '=' 2 with _ | ⟨k, _ | ⟨v, _ | ⟨x, l⟩⟩⟩
    · simp [hs, fatalf] at h
    · simp [hs, fatalf] at h
    · simp only [hs] at h ⊢
      cases h1 : (if regexpMatchString "aws_fluent_bit_s3_" k then getS3ConfigFile w v st
          else .ok st) with
      | error a => simp [h1] at h
      | ok st1 =>
        simp only [h1] at h
        obtain ⟨inv1, p1⟩ := s3_step_assembled _ w v st st1 h1 inv
        cases h2 : (if regexpMatchString "aws_fluent_bit_file_" k then processConfigFile v st1
            else .ok st1) with
        | error a => simp [h2] at h
        | ok st2 =>
          simp only [h2] at h
          obtain ⟨inv2, p2⟩ := file_step_assembled _ v st1 st2 h2 inv1
          obtain ⟨inv3, p3⟩ := ih st2 h inv2
          refine ⟨inv3, ?_⟩
          rw [p3, p2, p1]
          cases regexpMatchString "aws_fluent_bit_file_" k <;> simp
    · simp [hs, fatalf] at h

/-- The pass over the staging directory keeps the outputs assembled, processes
exactly the listed entries in the order of the listing, and leaves the
listing as it is. -/
theorem processS3ConfigFilesLoop_assembled (folderPath : String) (names : List String)
    (st st' : State) (h : processS3ConfigFilesLoop folderPath names st = .ok st')
    (inv : Assembled st) :
    Assembled st'
      ∧ st'.processed.map Prod.fst
          = st.processed.map Prod.fst ++ names.map (fun n => "/" ++ folderPath ++ "/" ++ n)
      ∧ st'.fs.entries s3FileFolderPath = st.fs.entries s3FileFolderPath
      ∧ ∀ q, absPath q ≠ "/fluent-bit-init.conf" → st'.fs.read q = st.fs.read q := by
  induction names generalizing st with
  | nil =>
    simp only [processS3ConfigFilesLoop, Except.ok.injEq] at h
    subst h
    exact ⟨inv, by simp, rfl, fun _ _ => rfl⟩
  | cons n names ih =>
    unfold processS3ConfigFilesLoop at h
    cases h1 : processConfigFile ("/" ++ folderPath ++ "/" ++ n) st with
    | error a => simp [h1] at h
    | ok st1 =>
      simp only [h1] at h
      obtain ⟨inv1, p1⟩ := processConfigFile_assembled _ st st1 h1 inv
      have f := processConfigFile_frame ("/" ++ folderPath ++ "/" ++ n) st
      rw [h1] at f
      obtain ⟨inv2, p2, e2, r2⟩ := ih st1 h inv1
      refine ⟨inv2, ?_, e2.trans f.2, fun q hq => (r2 q hq).trans (f.1 q hq)⟩
      rw [p2, p1]
      simp

/-! ## Staged objects stay on disk -/

namespace FS

theorem read_write_isSome (fs : FS) (p q c : String) (h : (read fs q).isSome = true) :
    (read (write fs p c) q).isSome = true := by
  by_cases e : absPath q = absPath p
  · simp [read, write, find, e]
  · rw [read_write_of_ne fs p q c e]
    exact h

theorem mem_of_find (fs : FS) (k : String) (h : (find fs k).isSome = true) :
    ∃ c, (k, c) ∈ fs := by
  induction fs with
  | nil => simp [find] at h
  | cons e rest ih =>
    obtain ⟨k', c⟩ := e
    by_cases hk : k' = k
    · subst hk
      exact ⟨c, by simp⟩
    · simp only [find, hk, if_false] at h
      obtain ⟨c', hc⟩ := ih h
      exact ⟨c', by simp [hc]⟩

/-- A file directly inside the staging directory is listed under its name. -/
theorem mem_entries_staged (fs : FS) (name : String) (hn : '/' ∉ name.data) (hne : name ≠ "")
    (h : (fs.read (s3FileFolderPath ++ "/" ++ name)).isSome = true) :
    name ∈ fs.entries s3FileFolderPath := by
  unfold read at h
  rw [absPath_staged] at h
  obtain ⟨c, hc⟩ := mem_of_find fs _ h
  unfold entries
  simp only []
  rw [(List.perm_insertionSort strings.le _).mem_iff, List.mem_dedup, List.mem_filterMap]
  refine ⟨("/fluent-bit-init-s3-files/" ++ name, c), hc, ?_⟩
  have hpre : (absPath s3FileFolderPath ++ "/").data = "/fluent-bit-init-s3-files/".data := by
    decide
  have hstart : strings.startsWithL ("/fluent-bit-init-s3-files/" ++ name).data
      "/fluent-bit-init-s3-files/".data = true := by
    rw [strings.startsWithL_iff]
    exact ⟨name.data, by simp [String.data_append]⟩
  have hdrop : ("/fluent-bit-init-s3-files/" ++ name).data.drop
      "/fluent-bit-init-s3-files/".data.length = name.data := by
    rw [String.data_append]
    exact List.drop_left' rfl
  have hdata : name.data ≠ [] := by
    intro e
    apply hne
    apply String.ext
    rw [e]
  simp only [hpre, hstart, if_true, hdrop, strings.splitL_no_sep '/' name.data 1 hn, hdata,
    if_false]

end FS

theorem downloadS3ConfigFile_present (dl : String → String → Option String)
    (key bucket : String) (st st' : State)
    (h : downloadS3ConfigFile dl key bucket st = .ok st') :
    (∃ name, stagedFilePath key = some (s3FileFolderPath ++ "/" ++ name)
      ∧ isDirPath (s3FileFolderPath ++ "/" ++ name) = false
      ∧ (st'.fs.read (s3FileFolderPath ++ "/" ++ name)).isSome = true)
    ∧ ∀ q, (st.fs.read q).isSome = true → (st'.fs.read q).isSome = true := by
  unfold downloadS3ConfigFile at h
  cases hp : stagedFilePath key with
  | none => simp [hp, goPanic] at h
  | some filePath =>
    obtain ⟨name, rfl⟩ := stagedFilePath_form key _ hp
    cases hd : isDirPath (s3FileFolderPath ++ "/" ++ name) with
    | true => simp [hp, createFile, hd, fatalf] at h
    | false =>
      cases hdl : dl bucket key with
      | none => simp [hp, createFile, hd, hdl, fatalf] at h
      | some bytes =>
        simp only [hp, createFile, hd, hdl, Bool.false_eq_true, if_false, Except.ok.injEq] at h
        subst h
        refine ⟨⟨name, rfl, hd, ?_⟩, fun q hq => ?_⟩
        · show (FS.read (FS.write (FS.write st.fs _ "") _ bytes) _).isSome = true
          rw [FS.read_write_same]
          rfl
        · exact FS.read_write_isSome _ _ _ _ (FS.read_write_isSome _ _ _ _ hq)

theorem getS3ConfigFile_present (w : World) (arn : String) (st st' : State)
    (h : getS3ConfigFile w arn st = .ok st') :
    (∃ bucket key name, bucketAndFile arn = .ok (bucket, key)
      ∧ stagedFilePath key = some (s3FileFolderPath ++ "/" ++ name)
      ∧ isDirPath (s3FileFolderPath ++ "/" ++ name) = false
      ∧ (st'.fs.read (s3FileFolderPath ++ "/" ++ name)).isSome = true)
    ∧ ∀ q, (st.fs.read q).isSome = true → (st'.fs.read q).isSome = true := by
  have hfs : (if !st.exists3Client then createS3Client st else st).fs = st.fs := by
    cases st.exists3Client <;> rfl
  unfold getS3ConfigFile at h
  generalize (if !st.exists3Client then createS3Client st else st) = st1 at h hfs
  cases hb : bucketAndFile arn with
  | error f => simp [hb] at h
  | ok bk =>
    obtain ⟨bucket, key⟩ := bk
    simp only [hb] at h
    cases hloc : w.getBucketLocation st1.s3ClientRegion bucket with
    | none => simp [hloc, fatalf] at h
    | some loc =>
      simp only [hloc] at h
      obtain ⟨⟨name, h1, h2, h3⟩, mono⟩ := downloadS3ConfigFile_present _ key bucket _ st' h
      exact ⟨⟨bucket, key, name, rfl, h1, h2, h3⟩, fun q hq => mono q (by rw [hfs]; exact hq)⟩

theorem processConfigFile_present (path : String) (st st' : State)
    (h : processConfigFile path st = .ok st') :
    ∀ q, (st.fs.read q).isSome = true → (st'.fs.read q).isSome = true := by
  intro q hq
  cases hread : st.fs.read path with
  | none =>
    rw [processConfigFile_unreadable path st hread] at h
    cases h
  | some content =>
    cases hc : strings.Contains content "[PARSER]" with
    | true =>
      rw [processConfigFile_on_parser_content path content st hread hc] at h
      cases h
      exact hq
    | false =>
      cases hm : st.fs.read mainConfigFilePath with
      | none =>
        simp [processConfigFile, hread, hc, writeInclude, openFile, hm, fatalf] at h
      | some mainConfig =>
        rw [processConfigFile_on_plain_content path content mainConfig st hread hc hm] at h
        cases h
        exact FS.read_write_isSome _ _ _ _ hq

/-- What a completed scan leaves on disk for a remote source: the reference was
resolved to a bucket and a key, and the file named after the last segment of
the key is in the staging directory. -/
theorem getAllConfigFilesLoop_present (w : World) (envs : List String) (st st' : State)
    (h : getAllConfigFilesLoop w envs st = .ok st') :
    (∀ q, (st.fs.read q).isSome = true → (st'.fs.read q).isSome = true)
    ∧ ∀ arn, arn ∈ remoteObjectSources envs →
        ∃ bucket key name, bucketAndFile arn = .ok (bucket, key)
          ∧ stagedFilePath key = some (s3FileFolderPath ++ "/" ++ name)
          ∧ isDirPath (s3FileFolderPath ++ "/" ++ name) = false
          ∧ (st'.fs.read (s3FileFolderPath ++ "/" ++ name)).isSome = true := by
  induction envs generalizing st with
  | nil =>
    simp only [getAllConfigFilesLoop, Except.ok.injEq] at h
    subst h
    exact ⟨fun _ hq => hq, fun arn hm => by simp [remoteObjectSources] at hm⟩
  | cons env envs ih =>
    unfold getAllConfigFilesLoop at h
    unfold remoteObjectSources
    rcases hs : strings.SplitN env '=' 2 with _ | ⟨k, _ | ⟨v, _ | ⟨x, l⟩⟩⟩
    · simp [hs, fatalf] at h
    · simp [hs, fatalf] at h
    · simp only [hs] at h ⊢
      cases hk : regexpMatchString "aws_fluent_bit_s3_" k with
      | false =>
        simp only [hk, Bool.false_eq_true, if_false] at h ⊢
        cases h2 : (if regexpMatchString "aws_fluent_bit_file_" k then processConfigFile v st
            else .ok st) with
        | error a => simp [h2] at h
        | ok st2 =>
          simp only [h2] at h
          have m2 : ∀ q, (st.fs.read q).isSome = true → (st2.fs.read q).isSome = true := by
            cases hf : regexpMatchString "aws_fluent_bit_file_" k with
            | false =>
              simp only [hf, Bool.false_eq_true, if_false, Except.ok.injEq] at h2
              subst h2
              exact fun _ hq => hq
            | true =>
              simp only [hf, if_true] at h2
              exact processConfigFile_present v st st2 h2
          obtain ⟨m3, r3⟩ := ih st2 h
          exact ⟨fun q hq => m3 q (m2 q hq), r3⟩
      | true =>
        simp only [hk, if_true] at h ⊢
        cases h1 : getS3ConfigFile w v st with
        | error a => simp [h1] at h
        | ok st1 =>
          simp only [h1] at h
          obtain ⟨⟨bucket, key, name, e1, e2, e3, e4⟩, m1⟩ := getS3ConfigFile_present w v st st1 h1
          cases h2 : (if regexpMatchString "aws_fluent_bit_file_" k then processConfigFile v st1
              else .ok st1) with
          | error a => simp [h2] at h
          | ok st2 =>
            simp only [h2] at h
            have m2 : ∀ q, (st1.fs.read q).isSome = true → (st2.fs.read q).isSome = true := by
              cases hf : regexpMatchString "aws_fluent_bit_file_" k with
              | false =>
                simp only [hf, Bool.false_eq_true, if_false, Except.ok.injEq] at h2
                subst h2
                exact fun _ hq => hq
              | true =>
                simp only [hf, if_true] at h2
                exact processConfigFile_present v st1 st2 h2
            obtain ⟨m3, r3⟩ := ih st2 h
            refine ⟨fun q hq => m3 q (m2 q (m1 q hq)), fun arn hm => ?_⟩
            rcases List.mem_cons.1 hm with e | e
            · subst e
              exact ⟨bucket, key, name, e1, e2, e3, m3 _ (m2 _ e4)⟩
            · exact r3 arn e
    · simp [hs, fatalf] at h

/-- A staged file that the run could create is listed under the last segment
of its key. -/
theorem staged_name_listed (fs : FS) (key name : String)
    (hp : stagedFilePath key = some (s3FileFolderPath ++ "/" ++ name))
    (hd : isDirPath (s3FileFolderPath ++ "/" ++ name) = false)
    (h : (fs.read (s3FileFolderPath ++ "/" ++ name)).isSome = true) :
    stagedFilePath key = some ("fluent-bit-init-s3-files/" ++ name)
      ∧ name ∈ fs.entries "fluent-bit-init-s3-files" := by
  obtain ⟨s, hs, hk, _⟩ := Split_last_segment key
  have hp2 := stagedFilePath_of_segment key s hs hk
  have e : name = s := by
    rw [hp, Option.some.injEq] at hp2
    have hdata := congrArg String.data hp2
    apply String.ext
    simpa [s3FileFolderPath, String.data_append] using hdata
  subst e
  have hne : name ≠ "" := by
    intro e
    subst e
    revert hd
    decide
  exact ⟨hp2, FS.mem_entries_staged fs name hs hne h⟩

/-! ## The whole run -/

/-- The scan of the environment never touches the invoker file, whether it
succeeds or aborts. -/
theorem getAllConfigFilesLoop_invoker (w : World) (envs : List String) (st : State) :
    (finalState (getAllConfigFilesLoop w envs st)).fs.read invokerFilePath
      = st.fs.read invokerFilePath := by
  induction envs generalizing st with
  | nil => rfl
  | cons env envs ih =>
    unfold getAllConfigFilesLoop
    rcases hs : strings.SplitN env '=' 2 with _ | ⟨k, _ | ⟨v, _ | ⟨x, l⟩⟩⟩
    · rfl
    · rfl
    · simp only []
      have f1 : (finalState (if regexpMatchString "aws_fluent_bit_s3_" k then
          getS3ConfigFile w v st else .ok st)).fs.read invokerFilePath
            = st.fs.read invokerFilePath := by
        cases regexpMatchString "aws_fluent_bit_s3_" k with
        | false => rfl
        | true => exact (getS3ConfigFile_frame w v st).2.2 invokerFilePath (by decide)
      cases h1 : (if regexpMatchString "aws_fluent_bit_s3_" k then getS3ConfigFile w v st
          else .ok st) with
      | error a =>
        rw [h1] at f1
        exact f1
      | ok st1 =>
        rw [h1] at f1
        simp only []
        have f2 : (finalState (if regexpMatchString "aws_fluent_bit_file_" k then
            processConfigFile v st1 else .ok st1)).fs.read invokerFilePath
              = st1.fs.read invokerFilePath := by
          cases regexpMatchString "aws_fluent_bit_file_" k with
          | false => rfl
          | true => exact (processConfigFile_frame v st1).1 invokerFilePath (by decide)
        cases h2 : (if regexpMatchString "aws_fluent_bit_file_" k then processConfigFile v st1
            else .ok st1) with
        | error a =>
          rw [h2] at f2
          exact f2.trans f1
        | ok st2 =>
          rw [h2] at f2
          simp only []
          exact (ih st2).trans (f2.trans f1)
    · rfl

theorem mainAfterMetadata_ok (w : World) (st st' : State)
    (h : mainAfterMetadata w st = .ok st')
    (hc : st.fluentBitCommand = defaultFluentBitCommand) (hp : st.processed = []) :
    Assembled st'
      ∧ st'.processed.map Prod.fst
          = localFileSources w.environ
            ++ (st'.fs.entries s3FileFolderPath).map (fun n => "/" ++ s3FileFolderPath ++ "/" ++ n)
      ∧ (∃ written, st.fs.read invokerFilePath = some written
          ∧ st'.fs.read invokerFilePath = some (written ++ st'.fluentBitCommand))
      ∧ ∀ arn, arn ∈ remoteObjectSources w.environ →
          ∃ bucket key name, bucketAndFile arn = .ok (bucket, key)
            ∧ stagedFilePath key = some ("fluent-bit-init-s3-files/" ++ name)
            ∧ name ∈ st'.fs.entries "fluent-bit-init-s3-files" := by
  unfold mainAfterMetadata at h
  have hd : isDirPath mainConfigFilePath = false := by decide
  simp only [createFile, hd, Bool.false_eq_true, if_false, writeInclude, openFile,
    FS.read_write_same, FS.write_write, createS3ConfigFileFolder, getAllConfigFiles,
    processS3ConfigFiles] at h
  generalize hst3 : ({ st with
      fs := st.fs.write mainConfigFilePath ("" ++ ("@INCLUDE " ++ originalMainConfigFilePath ++ "\n"))
      fluentBitCommand := createCommand st.fluentBitCommand mainConfigFilePath } : State) = st3 at h
  have inv3 : Assembled st3 := by
    subst hst3
    refine ⟨?_, ?_⟩
    · show createCommand st.fluentBitCommand mainConfigFilePath = _
      rw [hc, hp]
      decide
    · show FS.read (FS.write st.fs mainConfigFilePath _) mainConfigFilePath = _
      rw [FS.read_write_same, hp]
      decide
  have hp3 : st3.processed = [] := by
    subst hst3
    exact hp
  have hi3 : st3.fs.read invokerFilePath = st.fs.read invokerFilePath := by
    subst hst3
    exact FS.read_write_of_ne _ _ _ _ (by decide)
  cases h4 : getAllConfigFilesLoop w w.environ st3 with
  | error a => simp [h4] at h
  | ok st4 =>
    simp only [h4] at h
    obtain ⟨inv4, p4⟩ := getAllConfigFilesLoop_assembled w w.environ st3 st4 h4 inv3
    have hi4 := getAllConfigFilesLoop_invoker w w.environ st3
    rw [h4] at hi4
    cases h5 : processS3ConfigFilesLoop s3FileFolderPath (st4.fs.entries s3FileFolderPath) st4 with
    | error a => simp [h5] at h
    | ok st5 =>
      simp only [h5] at h
      obtain ⟨inv5, p5, e5, r5⟩ :=
        processS3ConfigFilesLoop_assembled s3FileFolderPath _ st4 st5 h5 inv4
      unfold modifyInvokerFile openFile at h
      cases h6 : st5.fs.read invokerFilePath with
      | none => simp [h6, fatalf] at h
      | some written =>
        simp only [h6, Except.ok.injEq] at h
        subst h
        have e6 : FS.entries (FS.write st5.fs invokerFilePath (written ++ st5.fluentBitCommand))
            s3FileFolderPath = st4.fs.entries s3FileFolderPath := by
          rw [FS.entries_write_outside _ _ _ _ (by decide), e5]
        refine ⟨⟨inv5.command, ?_⟩, ?_, ⟨written, ?_, ?_⟩, ?_⟩
        · show FS.read (FS.write st5.fs invokerFilePath _) mainConfigFilePath = _
          rw [FS.read_write_of_ne _ _ _ _ (by decide)]
          exact inv5.mainConfig
        · show st5.processed.map Prod.fst = _ ++
            (FS.entries (FS.write st5.fs invokerFilePath _) s3FileFolderPath).map _
          rw [FS.entries_write_outside _ _ _ _ (by decide), e5, p5, p4, hp3]
          simp
        · rw [← hi3, ← (show st4.fs.read invokerFilePath = st3.fs.read invokerFilePath from hi4),
            ← r5 invokerFilePath (by decide)]
          exact h6
        · exact FS.read_write_same _ _ _
        · intro arn hm
          obtain ⟨bucket, key, name, b1, b2, b3, b4⟩ :=
            (getAllConfigFilesLoop_present w w.environ st3 st4 h4).2 arn hm
          obtain ⟨c1, c2⟩ := staged_name_listed st4.fs key name b2 b3 b4
          refine ⟨bucket, key, name, b1, c1, ?_⟩
          show name ∈ FS.entries (FS.write st5.fs invokerFilePath _) s3FileFolderPath
          rw [e6]
          exact c2

theorem main_ok (w : World) (st : State) (h : main w = .ok st) :
    Assembled st
      ∧ st.processed.map Prod.fst
          = localFileSources w.environ
            ++ (st.fs.entries s3FileFolderPath).map (fun n => "/" ++ s3FileFolderPath ++ "/" ++ n)
      ∧ (∃ metadata, getECSTaskMetadata w = .ok metadata
          ∧ st.fs.read invokerFilePath = some (exportLines metadata ++ st.fluentBitCommand))
      ∧ ∀ arn, arn ∈ remoteObjectSources w.environ →
          ∃ bucket key name, bucketAndFile arn = .ok (bucket, key)
            ∧ stagedFilePath key = some ("fluent-bit-init-s3-files/" ++ name)
            ∧ name ∈ st.fs.entries "fluent-bit-init-s3-files" := by
  unfold main at h
  have hd : isDirPath invokerFilePath = false := by decide
  simp only [createFile, hd, Bool.false_eq_true, if_false] at h
  cases hm : getECSTaskMetadata w with
  | error f => simp [hm] at h
  | ok metadata =>
    simp only [hm] at h
    rw [setECSTaskMetadata_ok metadata invokerFilePath "" _ (FS.read_write_same _ _ _)] at h
    simp only [] at h
    obtain ⟨inv, p, ⟨written, hw, hfin⟩, hrem⟩ := mainAfterMetadata_ok w _ st h rfl rfl
    refine ⟨inv, p, ⟨metadata, rfl, ?_⟩, hrem⟩
    rw [FS.read_write_same] at hw
    rw [hfin, ← Option.some.inj hw]
    simp

/-- C1. In every run that completes, the final command is the fixed base
command, then ` -c /fluent-bit-init.conf` once, then ` -R <path>` for each
processed fragment whose content contains `[PARSER]`, in processing order, and
nothing else; there are as many `-R` flags as parser fragments, none when no
fragment was processed. That command is what the invoker file ends with. -/
theorem main_final_command (w : World) (st : State) (h : main w = .ok st) :
    st.fluentBitCommand
      = "exec /fluent-bit/bin/fluent-bit -e /fluent-bit/firehose.so -e /fluent-bit/cloudwatch.so -e /fluent-bit/kinesis.so"
        ++ " -c /fluent-bit-init.conf"
        ++ joinAll ((st.processed.filter (fun f => strings.Contains f.2 "[PARSER]")).map
            (fun f => " -R " ++ f.1))
    ∧ ((st.processed.filter (fun f => strings.Contains f.2 "[PARSER]")).map
          (fun f => " -R " ++ f.1)).length
        = (st.processed.filter (fun f => strings.Contains f.2 "[PARSER]")).length
    ∧ (st.processed = [] → st.fluentBitCommand
        = "exec /fluent-bit/bin/fluent-bit -e /fluent-bit/firehose.so -e /fluent-bit/cloudwatch.so -e /fluent-bit/kinesis.so -c /fluent-bit-init.conf")
    ∧ ∃ written : String, st.fs.read "fluent-bit-invoker.sh" = some (written ++ st.fluentBitCommand) := by
  obtain ⟨inv, _, ⟨metadata, _, hfin⟩, _⟩ := main_ok w st h
  refine ⟨inv.command, by simp, ?_, exportLines metadata, hfin⟩
  intro hp
  rw [inv.command, hp]
  decide

/-- Witness of C1 on `mixedWorld`: three fragments are processed, one of them a
parser fragment, and the command ends with the single flag ` -R /parsers.conf`;
and on `sampleWorld`, which has no source at all: the command ends with the
`-c` flag. -/
theorem main_final_command_witness :
    main mixedWorld = .ok (finalState (main mixedWorld))
    ∧ (finalState (main mixedWorld)).processed.map Prod.fst
        = ["/local.conf", "/parsers.conf", "/fluent-bit-init-s3-files/remote.conf"]
    ∧ (finalState (main mixedWorld)).fluentBitCommand
        = "exec /fluent-bit/bin/fluent-bit -e /fluent-bit/firehose.so -e /fluent-bit/cloudwatch.so -e /fluent-bit/kinesis.so -c /fluent-bit-init.conf -R /parsers.conf"
    ∧ main sampleWorld = .ok (finalState (main sampleWorld))
    ∧ (finalState (main sampleWorld)).processed = []
    ∧ (finalState (main sampleWorld)).fluentBitCommand
        = "exec /fluent-bit/bin/fluent-bit -e /fluent-bit/firehose.so -e /fluent-bit/cloudwatch.so -e /fluent-bit/kinesis.so -c /fluent-bit-init.conf" :=
  ⟨by decide, by decide,
    (main_final_command mixedWorld (finalState (main mixedWorld)) (by decide)).1.trans (by decide),
    by decide, by decide,
    (main_final_command sampleWorld (finalState (main sampleWorld)) (by decide)).2.2.1 (by decide)⟩

/-- C2. In every run that completes, the main config file holds the line
`@INCLUDE /fluent-bit/etc/fluent-bit.conf` first, then one line
`@INCLUDE <path>` for each processed fragment whose content does not contain
`[PARSER]`, in processing order, each once, and nothing else. -/
theorem main_include_lines (w : World) (st : State) (h : main w = .ok st) :
    st.fs.read "fluent-bit-init.conf"
      = some ("@INCLUDE /fluent-bit/etc/fluent-bit.conf\n"
        ++ joinAll ((st.processed.filter (fun f => !strings.Contains f.2 "[PARSER]")).map
            (fun f => "@INCLUDE " ++ f.1 ++ "\n")))
    ∧ ((st.processed.filter (fun f => !strings.Contains f.2 "[PARSER]")).map
          (fun f => "@INCLUDE " ++ f.1 ++ "\n")).length
        = (st.processed.filter (fun f => !strings.Contains f.2 "[PARSER]")).length := by
  obtain ⟨inv, _, _⟩ := main_ok w st h
  exact ⟨inv.mainConfig, by simp⟩

/-- Witness of C2 on `mixedWorld`: the two plain fragments give two include lines
after the first line, in processing order. -/
theorem main_include_lines_witness :
    main mixedWorld = .ok (finalState (main mixedWorld))
    ∧ (finalState (main mixedWorld)).fs.read "fluent-bit-init.conf"
        = some ("@INCLUDE /fluent-bit/etc/fluent-bit.conf\n" ++ "@INCLUDE /local.conf\n"
            ++ "@INCLUDE /fluent-bit-init-s3-files/remote.conf\n") :=
  ⟨by decide,
    (main_include_lines mixedWorld (finalState (main mixedWorld)) (by decide)).1.trans (by decide)⟩

/-! ## The order of the sources -/

namespace strings

theorem leL_total (a b : List Char) : leL a b = true ∨ leL b a = true := by
  induction a generalizing b with
  | nil => simp [leL]
  | cons c cs ih =>
    cases b with
    | nil => simp [leL]
    | cons d ds =>
      simp only [leL]
      rcases Nat.lt_trichotomy c.toNat d.toNat with h | h | h
      · simp [h]
      · simp [h, ih ds]
      · have h2 : ¬ c.toNat < d.toNat := by omega
        simp [h, h2]

theorem leL_trans (a b c : List Char) (h1 : leL a b = true) (h2 : leL b c = true) :
    leL a c = true := by
  induction a generalizing b c with
  | nil => simp [leL]
  | cons x xs ih =>
    cases b with
    | nil => simp [leL] at h1
    | cons y ys =>
      cases c with
      | nil => simp [leL] at h2
      | cons z zs =>
        simp only [leL] at h1 h2 ⊢
        by_cases hxy : x.toNat < y.toNat
        · by_cases hyz : y.toNat < z.toNat
          · have : x.toNat < z.toNat := by omega
            simp [this]
          · by_cases hzy : z.toNat < y.toNat
            · simp [hyz, hzy] at h2
            · have : x.toNat < z.toNat := by omega
              simp [this]
        · by_cases hyx : y.toNat < x.toNat
          · simp [hxy, hyx] at h1
          · simp only [hxy, hyx, if_false] at h1
            by_cases hyz : y.toNat < z.toNat
            · have : x.toNat < z.toNat := by omega
              simp [this]
            · by_cases hzy : z.toNat < y.toNat
              · simp [hyz, hzy] at h2
              · simp only [hyz, hzy, if_false] at h2
                have e1 : ¬ x.toNat < z.toNat := by omega
                have e2 : ¬ z.toNat < x.toNat := by omega
                simp only [e1, e2, if_false]
                exact ih ys zs h1 h2

end strings

/-- The listing of a directory is sorted by name. -/
theorem FS.entries_sorted (fs : FS) (dir : String) : List.Sorted strings.le (fs.entries dir) := by
  haveI : IsTotal String strings.le := ⟨fun a b => strings.leL_total a.data b.data⟩
  haveI : IsTrans String strings.le := ⟨fun a b c => strings.leL_trans a.data b.data c.data⟩
  unfold FS.entries
  exact List.sorted_insertionSort strings.le _

/-- C9, as the code has it. In every run that completes, the fragments
processed are first the local-file sources, in the order in which the scan of
the environment discovers them, and then the entries of the staging directory,
in the order of its listing, which is sorted by file name; every
remote-object source has its object among these entries, under the last
segment of its key. The `-R` flags of the command and the include lines of
the main config file follow that order: those of the local-file sources
first, those of the staged objects after them. -/
theorem main_source_order (w : World) (st : State) (h : main w = .ok st) :
    ∃ locals staged : List (String × String),
      st.processed = locals ++ staged
      ∧ locals.map Prod.fst = localFileSources w.environ
      ∧ staged.map Prod.fst
          = (st.fs.entries "fluent-bit-init-s3-files").map
              (fun n => "/fluent-bit-init-s3-files/" ++ n)
      ∧ List.Sorted strings.le (st.fs.entries "fluent-bit-init-s3-files")
      ∧ (∀ arn, arn ∈ remoteObjectSources w.environ →
          ∃ bucket key name, bucketAndFile arn = .ok (bucket, key)
            ∧ stagedFilePath key = some ("fluent-bit-init-s3-files/" ++ name)
            ∧ name ∈ st.fs.entries "fluent-bit-init-s3-files")
      ∧ st.fluentBitCommand
          = defaultFluentBitCommand ++ " -c /fluent-bit-init.conf"
            ++ parserFlags locals ++ parserFlags staged
      ∧ st.fs.read "fluent-bit-init.conf"
          = some ("@INCLUDE /fluent-bit/etc/fluent-bit.conf\n"
              ++ includeLines locals ++ includeLines staged) := by
  obtain ⟨inv, p, _, hrem⟩ := main_ok w st h
  have hsplit : st.processed
      = st.processed.take (localFileSources w.environ).length
        ++ st.processed.drop (localFileSources w.environ).length :=
    (List.take_append_drop _ _).symm
  refine ⟨st.processed.take (localFileSources w.environ).length,
    st.processed.drop (localFileSources w.environ).length, hsplit, ?_, ?_,
    FS.entries_sorted _ _, hrem, ?_, ?_⟩
  · rw [List.map_take, p, List.take_left']
    rfl
  · rw [List.map_drop, p, List.drop_left']
    · have e : (fun n : String => "/" ++ s3FileFolderPath ++ "/" ++ n)
          = (fun n : String => "/fluent-bit-init-s3-files/" ++ n) := by
        funext n
        apply String.ext
        simp [s3FileFolderPath, String.data_append]
      rw [e]
      rfl
    · rfl
  · have hc := inv.command
    rw [hsplit, parserFlags_append, ← String.append_assoc] at hc
    exact hc
  · have hm := inv.mainConfig
    rw [hsplit, includeLines_append, ← String.append_assoc] at hm
    exact hm

/-- Witness of C9 as amended, on `mixedWorld`: the two local-file sources come
first, in discovery order, and the remote source, although discovered before
them, comes last. -/
theorem main_source_order_witness :
    main mixedWorld = .ok (finalState (main mixedWorld))
    ∧ ∃ locals staged : List (String × String),
        (finalState (main mixedWorld)).processed = locals ++ staged
        ∧ locals.map Prod.fst = ["/local.conf", "/parsers.conf"]
        ∧ staged.map Prod.fst = ["/fluent-bit-init-s3-files/remote.conf"] := by
  refine ⟨by decide, ?_⟩
  obtain ⟨locals, staged, h1, h2, h3, _⟩ :=
    main_source_order mixedWorld (finalState (main mixedWorld)) (by decide)
  exact ⟨locals, staged, h1, h2.trans (by decide), h3.trans (by decide)⟩

/-- C9 fails as stated. In `mixedWorld` the remote source is discovered before
both local-file sources, yet its include line is the last one; in
`twoRemotesWorld` the source `zeta.conf` is discovered before `alpha.conf`,
yet the line of `alpha.conf` comes first. -/
theorem remote_source_placed_last :
    remoteObjectSources mixedWorld.environ = ["arn:aws:s3:::ygloa-bucket/conf/remote.conf"]
    ∧ localFileSources mixedWorld.environ = ["/local.conf", "/parsers.conf"]
    ∧ (main mixedWorld).toOption.bind (fun st => st.fs.read "fluent-bit-init.conf")
        = some ("@INCLUDE /fluent-bit/etc/fluent-bit.conf\n" ++ "@INCLUDE /local.conf\n"
            ++ "@INCLUDE /fluent-bit-init-s3-files/remote.conf\n")
    ∧ remoteObjectSources twoRemotesWorld.environ
        = ["arn:aws:s3:::ygloa-bucket/zeta.conf", "arn:aws:s3:::ygloa-bucket/alpha.conf"]
    ∧ (main twoRemotesWorld).toOption.bind (fun st => st.fs.read "fluent-bit-init.conf")
        = some ("@INCLUDE /fluent-bit/etc/fluent-bit.conf\n"
            ++ "@INCLUDE /fluent-bit-init-s3-files/alpha.conf\n"
            ++ "@INCLUDE /fluent-bit-init-s3-files/zeta.conf\n") := by
  refine ⟨by decide, by decide, by decide, by decide, by decide⟩

/-! ## Remote references that are turned down -/

theorem first_sep_cases (sep : Char) (s : List Char) (h : sep ∈ s) :
    ∃ a b, s = a ++ sep :: b ∧ sep ∉ a := by
  induction s with
  | nil => cases h
  | cons c cs ih =>
    by_cases hc : c = sep
    · subst hc
      exact ⟨[], cs, rfl, by simp⟩
    · have hm : sep ∈ cs := by
        rcases List.mem_cons.1 h with e | e
        · exact absurd e.symm hc
        · exact e
      obtain ⟨a, b, e, ha⟩ := ih hm
      refine ⟨c :: a, b, by simp [e], ?_⟩
      intro hmem
      rcases List.mem_cons.1 hmem with e2 | e2
      · exact hc e2.symm
      · exact ha e2

/-- The only check `getS3ConfigFile` makes on a reference: it is taken exactly
when a `/` occurs after its first 13 bytes. -/
theorem bucketAndFile_accepts_iff (arn : String) :
    (∃ bucket key, bucketAndFile arn = .ok (bucket, key)) ↔ '/' ∈ arn.data.drop 13 := by
  constructor
  · rintro ⟨bucket, key, h⟩
    by_contra hn
    unfold bucketAndFile strings.sliceFrom at h
    by_cases hl : 13 ≤ arn.data.length
    · simp only [hl, if_true] at h
      rw [strings.SplitN_two_no_sep (String.mk (arn.data.drop 13)) '/' hn] at h
      simp at h
    · simp only [hl, if_false] at h
      cases h
  · intro h
    obtain ⟨a, b, e, ha⟩ := first_sep_cases '/' _ h
    have hl : 13 ≤ arn.data.length := by
      by_contra hn
      have : arn.data.drop 13 = [] := List.drop_eq_nil_of_le (by omega)
      rw [this] at h
      cases h
    exact ⟨String.mk a, String.mk b, bucketAndFile_of_drop arn _ _ hl e ha⟩

theorem bucketAndFile_rejects (arn : String) (h : '/' ∉ arn.data.drop 13) :
    bucketAndFile arn = .error (.panic "slice bounds out of range")
      ∨ bucketAndFile arn = .error (.fatal ("Unrecognizable arn: " ++ arn)) := by
  unfold bucketAndFile strings.sliceFrom
  by_cases hl : 13 ≤ arn.data.length
  · right
    simp only [hl, if_true]
    rw [strings.SplitN_two_no_sep (String.mk (arn.data.drop 13)) '/' h]
  · left
    simp only [hl, if_false]

theorem rejected_reference_aborts (w : World) (arn : String) (st : State)
    (h : '/' ∉ arn.data.drop 13) :
    ∃ a, getS3ConfigFile w arn st = .error a
      ∧ (a.cause = .panic "slice bounds out of range"
          ∨ a.cause = .fatal ("Unrecognizable arn: " ++ arn))
      ∧ a.st.fs = st.fs ∧ a.st.fluentBitCommand = st.fluentBitCommand := by
  have hfs : (if !st.exists3Client then createS3Client st else st).fs = st.fs := by
    cases st.exists3Client <;> rfl
  have hcmd : (if !st.exists3Client then createS3Client st else st).fluentBitCommand
      = st.fluentBitCommand := by
    cases st.exists3Client <;> rfl
  unfold getS3ConfigFile
  rcases bucketAndFile_rejects arn h with e | e
  · exact ⟨{ cause := .panic "slice bounds out of range",
             st := if !st.exists3Client then createS3Client st else st },
      by simp only [e], Or.inl rfl, hfs, hcmd⟩
  · exact ⟨{ cause := .fatal ("Unrecognizable arn: " ++ arn),
             st := if !st.exists3Client then createS3Client st else st },
      by simp only [e], Or.inr rfl, hfs, hcmd⟩

/-- The scan aborts when the environment holds a remote source that is turned
down. -/
theorem getAllConfigFilesLoop_aborts (w : World) (envs : List String) (env key arn : String)
    (hmem : env ∈ envs) (hs : strings.SplitN env '=' 2 = [key, arn])
    (hk : regexpMatchString "aws_fluent_bit_s3_" key = true)
    (h : '/' ∉ arn.data.drop 13) (st : State) :
    ∃ a, getAllConfigFilesLoop w envs st = .error a := by
  induction envs generalizing st with
  | nil => cases hmem
  | cons e envs ih =>
    unfold getAllConfigFilesLoop
    by_cases he : env = e
    · subst he
      obtain ⟨a, ha, _⟩ := rejected_reference_aborts w arn st h
      simp only [hs, hk, if_true, ha]
      exact ⟨a, rfl⟩
    · have hm : env ∈ envs := by
        rcases List.mem_cons.1 hmem with e2 | e2
        · exact absurd e2 he
        · exact e2
      rcases hse : strings.SplitN e '=' 2 with _ | ⟨k, _ | ⟨v, _ | ⟨x, l⟩⟩⟩
      · exact ⟨_, rfl⟩
      · exact ⟨_, rfl⟩
      · simp only []
        cases h1 : (if regexpMatchString "aws_fluent_bit_s3_" k then getS3ConfigFile w v st
            else .ok st) with
        | error a => exact ⟨a, rfl⟩
        | ok st1 =>
          simp only []
          cases h2 : (if regexpMatchString "aws_fluent_bit_file_" k then processConfigFile v st1
              else .ok st1) with
          | error a => exact ⟨a, rfl⟩
          | ok st2 => exact ih hm st2
      · exact ⟨_, rfl⟩

theorem mainAfterMetadata_aborts (w : World) (st : State)
    (hscan : ∀ st1, ∃ a, getAllConfigFilesLoop w w.environ st1 = .error a) :
    ∃ a, mainAfterMetadata w st = .error a
      ∧ a.st.fs.read invokerFilePath = st.fs.read invokerFilePath := by
  unfold mainAfterMetadata
  have hd : isDirPath mainConfigFilePath = false := by decide
  simp only [createFile, hd, Bool.false_eq_true, if_false, writeInclude, openFile,
    FS.read_write_same, FS.write_write, createS3ConfigFileFolder, getAllConfigFiles]
  generalize hst3 : ({ st with
      fs := st.fs.write mainConfigFilePath ("" ++ ("@INCLUDE " ++ originalMainConfigFilePath ++ "\n"))
      fluentBitCommand := createCommand st.fluentBitCommand mainConfigFilePath } : State) = st3
  have hi3 : st3.fs.read invokerFilePath = st.fs.read invokerFilePath := by
    subst hst3
    exact FS.read_write_of_ne _ _ _ _ (by decide)
  obtain ⟨a, ha⟩ := hscan st3
  have hi := getAllConfigFilesLoop_invoker w w.environ st3
  rw [ha] at hi
  exact ⟨a, by simp only [ha], hi.trans hi3⟩

/-- C6, as the code has it. A remote reference with no `/` after its first 13
bytes is turned down by `getS3ConfigFile`: the run aborts there (with the
fatal error `Unrecognizable arn`, or with a slice panic when the reference is
shorter than 13 bytes) before any bucket lookup or download, leaving the disk
as it is. A run whose environment holds such a remote source aborts, and the
invoker file is left with the export lines only (or empty): the command is
never written to it. -/
theorem getS3ConfigFile_rejects (w : World) (arn : String) (h : '/' ∉ arn.data.drop 13) :
    (∀ st : State, ∃ a, getS3ConfigFile w arn st = .error a
      ∧ (a.cause = .panic "slice bounds out of range"
          ∨ a.cause = .fatal ("Unrecognizable arn: " ++ arn))
      ∧ a.st.fs = st.fs)
    ∧ (∀ env key : String, env ∈ w.environ → strings.SplitN env '=' 2 = [key, arn] →
        regexpMatchString "aws_fluent_bit_s3_" key = true →
        ∃ a, main w = .error a
          ∧ ((∃ f, getECSTaskMetadata w = .error f
                ∧ a.st.fs.read "fluent-bit-invoker.sh" = some "")
            ∨ (∃ metadata, getECSTaskMetadata w = .ok metadata
                ∧ a.st.fs.read "fluent-bit-invoker.sh" = some (exportLines metadata)))) := by
  constructor
  · intro st
    obtain ⟨a, h1, h2, h3, _⟩ := rejected_reference_aborts w arn st h
    exact ⟨a, h1, h2, h3⟩
  · intro env key hmem hs hk
    have hscan := getAllConfigFilesLoop_aborts w w.environ env key arn hmem hs hk h
    unfold main
    have hd : isDirPath invokerFilePath = false := by decide
    simp only [createFile, hd, Bool.false_eq_true, if_false]
    cases hm : getECSTaskMetadata w with
    | error f =>
      exact ⟨_, rfl, Or.inl ⟨f, rfl, FS.read_write_same _ _ _⟩⟩
    | ok metadata =>
      simp only []
      rw [setECSTaskMetadata_ok metadata invokerFilePath "" _ (FS.read_write_same _ _ _)]
      simp only []
      obtain ⟨a, ha, hi⟩ := mainAfterMetadata_aborts w _ hscan
      refine ⟨a, ha, Or.inr ⟨metadata, rfl, ?_⟩⟩
      show a.st.fs.read invokerFilePath = _
      rw [hi, FS.read_write_same]
      simp

/-- Witness of C6 as amended, on `rejectedWorld`: the reference
`arn:aws:s3:::ygloa-bucket` has nothing after its first 13 bytes but the
bucket name; the run aborts and the invoker file stays empty. -/
theorem getS3ConfigFile_rejects_witness :
    ∃ a, main rejectedWorld = .error a
      ∧ a.cause = .fatal "Unrecognizable arn: arn:aws:s3:::ygloa-bucket"
      ∧ a.st.fs.read "fluent-bit-invoker.sh" = some "" := by
  obtain ⟨a, ha, _⟩ := (getS3ConfigFile_rejects rejectedWorld "arn:aws:s3:::ygloa-bucket"
    (by decide)).2 "aws_fluent_bit_s3_conf=arn:aws:s3:::ygloa-bucket" "aws_fluent_bit_s3_conf"
    (by decide) (by decide) (by decide)
  have e : main rejectedWorld = .error
      { cause := .fatal "Unrecognizable arn: arn:aws:s3:::ygloa-bucket"
        st := finalState (main rejectedWorld) } := by decide
  exact ⟨_, e, rfl, by decide⟩

/-- C6 fails as stated. The text `arn-aws-s3---ygloa-bucket/s3_parser.conf` holds
no `:` at all, so it is not of the form `scheme:partition:service:::bucket/key`;
yet the code cuts its first 13 bytes, takes `ygloa-bucket` for the bucket and
`s3_parser.conf` for the object key, fetches that object, and the run
completes with the command written to the invoker file. -/
theorem malformed_reference_accepted :
    ':' ∉ "arn-aws-s3---ygloa-bucket/s3_parser.conf".data
    ∧ remoteObjectSources malformedWorld.environ = ["arn-aws-s3---ygloa-bucket/s3_parser.conf"]
    ∧ bucketAndFile "arn-aws-s3---ygloa-bucket/s3_parser.conf"
        = .ok ("ygloa-bucket", "s3_parser.conf")
    ∧ main malformedWorld = .ok (finalState (main malformedWorld))
    ∧ (finalState (main malformedWorld)).fs.read "fluent-bit-init-s3-files/s3_parser.conf"
        = some "[PARSER]\n"
    ∧ (finalState (main malformedWorld)).fs.read "fluent-bit-invoker.sh"
        = some "exec /fluent-bit/bin/fluent-bit -e /fluent-bit/firehose.so -e /fluent-bit/cloudwatch.so -e /fluent-bit/kinesis.so -c /fluent-bit-init.conf -R /fluent-bit-init-s3-files/s3_parser.conf" := by
  refine ⟨by decide, by decide, by decide, by decide, by decide, by decide⟩

end FluentBitInit
